import Mathlib

/-!
# iospng: the PNG chunk reader, writer and normalizer of `pkg/iospng/normalizer.go`

A shallow embedding of the Go package `iospng`.

* A Go `[]byte` is a `List Byte`; a slice expression that Go would reject at run time
  (`slice bounds out of range`) is the failure `panicSlice`. The buffers are taken with
  capacity equal to their length. Every buffer that faults here also faults in Go whatever
  its capacity, because the cursor is advanced with `pngData[n:]`, whose upper bound is the
  length of the slice.
* `uint32` is a `Nat` below `2 ^ 32`, `int32` an `Int`, `uint`/`uintptr`/`int` are 64 bit wide and
  never overflow on the sums the code forms (`8 + L + 4` with `L < 2 ^ 32`).
* A Go function that returns `(value, error)` or panics is an `Except Failure value`.
* `compress/flate` and `compress/zlib` are parameters (`Codec`); `hash/crc32` is the bytewise
  table algorithm of the Go standard library.
-/

namespace iospng

/-- One element of a Go `[]byte`. -/
abbrev Byte := Fin 256

/-- The ways a call can end without a value: an `error` value handed back to the caller,
a run-time panic, or the exhaustion of the fuel of a loop of this embedding. -/
inductive Failure where
  | errNotPNGFormat
  | errFlate
  | errZlib
  | panicSlice
  | panicIndex
  | panicNil
  | outOfFuel
  deriving DecidableEq, Repr

/-- The failures that are Go `error` values returned to the caller (not panics). -/
def Failure.isReturnedError : Failure → Bool
  | .errNotPNGFormat => true
  | .errFlate => true
  | .errZlib => true
  | _ => false

/-- The failures that are Go run-time panics. -/
def Failure.isPanic : Failure → Bool
  | .panicSlice => true
  | .panicIndex => true
  | .panicNil => true
  | _ => false

/-- The constant `PngFileHeader = "\x89PNG\r\n\x1a\n"`. -/
def PngFileHeader : List Byte := [0x89, 0x50, 0x4E, 0x47, 0x0D, 0x0A, 0x1A, 0x0A]

/-- The ASCII bytes of the chunk type names the normalizer switches on. -/
def tagIHDR : List Byte := [0x49, 0x48, 0x44, 0x52]

def tagIDAT : List Byte := [0x49, 0x44, 0x41, 0x54]

def tagIEND : List Byte := [0x49, 0x45, 0x4E, 0x44]

def tagCgBI : List Byte := [0x43, 0x67, 0x42, 0x49]

/-- The value `binary.BigEndian.Uint32` decodes from four bytes. -/
def beUint32 (b0 b1 b2 b3 : Byte) : Nat :=
  b0.val * 2 ^ 24 + b1.val * 2 ^ 16 + b2.val * 2 ^ 8 + b3.val

/-- The four bytes `binary.BigEndian.PutUint32` writes for a `uint32`. -/
def putUint32 (v : Nat) : List Byte :=
  [⟨v / 2 ^ 24 % 256, Nat.mod_lt _ (by decide)⟩, ⟨v / 2 ^ 16 % 256, Nat.mod_lt _ (by decide)⟩,
   ⟨v / 2 ^ 8 % 256, Nat.mod_lt _ (by decide)⟩, ⟨v % 256, Nat.mod_lt _ (by decide)⟩]

/-- The conversion of a 32-bit pattern to `int32` (two's complement). -/
def toInt32 (v : Nat) : Int :=
  if v % 2 ^ 32 < 2 ^ 31 then (v % 2 ^ 32 : Nat) else ((v % 2 ^ 32 : Nat) : Int) - 2 ^ 32

/-- The Go array type `[4]byte`. -/
structure Bytes4 where
  b0 : Byte
  b1 : Byte
  b2 : Byte
  b3 : Byte
  deriving DecidableEq, Repr

/-- The slice `a[:]` of a `[4]byte`. -/
def Bytes4.toList (a : Bytes4) : List Byte := [a.b0, a.b1, a.b2, a.b3]

/-- The struct `ChunkHeader`: `ChunkLength uint32`, `ChunkType [4]byte`. -/
structure ChunkHeader where
  ChunkLength : Nat
  ChunkType : Bytes4
  deriving DecidableEq, Repr

/-- The method `GetChunkType`: the type tag as a string. -/
def ChunkHeader.GetChunkType (receiver : ChunkHeader) : List Byte :=
  receiver.ChunkType.toList

/-- The struct `ImageSize`: `Width int32`, `Height int32`. -/
structure ImageSize where
  Width : Int
  Height : Int
  deriving DecidableEq, Repr

/-- The struct `ImageChunk`: header, payload and `crc uint32`. -/
structure ImageChunk where
  header : ChunkHeader
  data : List Byte
  crc : Nat
  deriving DecidableEq, Repr

/-- The method `GetFullChunkLength`: `Sizeof(header) + ChunkLength + Sizeof(crc)`, with
`unsafe.Sizeof(header) = 8` and `unsafe.Sizeof(crc) = 4`. -/
def ImageChunk.GetFullChunkLength (receiver : ImageChunk) : Nat :=
  8 + receiver.header.ChunkLength + 4

/-- The method `tryGetImageSize`: `nil` unless the chunk is `IHDR`; for `IHDR` the two
big-endian `int32` at the start of the payload, or the zero value when `binary.Read` fails
because the payload has fewer than 8 bytes (its error is discarded). -/
def ImageChunk.tryGetImageSize (receiver : ImageChunk) : Option ImageSize :=
  if receiver.header.GetChunkType = tagIHDR then
    match receiver.data with
    | w0 :: w1 :: w2 :: w3 :: h0 :: h1 :: h2 :: h3 :: _ =>
      some ⟨toInt32 (beUint32 w0 w1 w2 w3), toInt32 (beUint32 h0 h1 h2 h3)⟩
    | _ => some ⟨0, 0⟩
  else none

/-- The method `SaveFullChunkToData`: the header as `binary.Write` lays it out (length, then
type), the payload, the checksum. -/
def ImageChunk.SaveFullChunkToData (receiver : ImageChunk) : List Byte :=
  let chunkHeaderBuf := putUint32 receiver.header.ChunkLength ++ receiver.header.ChunkType.toList
  let chunkCRCBuf := putUint32 receiver.crc
  chunkHeaderBuf ++ receiver.data ++ chunkCRCBuf

/-- The method `Copy`: a fresh chunk with the same header, payload bytes and checksum. -/
def ImageChunk.Copy (receiver : ImageChunk) : ImageChunk :=
  { header := receiver.header, data := [] ++ receiver.data, crc := receiver.crc }

/-- The slice expression `data[lo:hi]`, which panics unless `lo ≤ hi ≤ len(data)`. -/
def goSlice (data : List Byte) (lo hi : Nat) : Except Failure (List Byte) :=
  if lo ≤ hi ∧ hi ≤ data.length then .ok ((data.drop lo).take (hi - lo)) else .error .panicSlice

/-- The slice expression `data[lo:]`, which panics unless `lo ≤ len(data)`. -/
def goSliceFrom (data : List Byte) (lo : Nat) : Except Failure (List Byte) :=
  if lo ≤ data.length then .ok (data.drop lo) else .error .panicSlice

/-- The index expression `data[i]`, which panics unless `i < len(data)`. -/
def goIndex (data : List Byte) (i : Nat) : Except Failure Byte :=
  match data[i]? with
  | some b => .ok b
  | none => .error .panicIndex

/-- What `binary.Read(reader, BigEndian, &header)` leaves in a zero `ChunkHeader`: the decoded
8 bytes, or the zero value when fewer than 8 bytes are left (the error is discarded). -/
def readChunkHeader (data : List Byte) : ChunkHeader :=
  match data with
  | l0 :: l1 :: l2 :: l3 :: t0 :: t1 :: t2 :: t3 :: _ =>
    { ChunkLength := beUint32 l0 l1 l2 l3, ChunkType := ⟨t0, t1, t2, t3⟩ }
  | _ => { ChunkLength := 0, ChunkType := ⟨0, 0, 0, 0⟩ }

/-- What `binary.Read(reader, BigEndian, &crc)` leaves in a zero `uint32`. -/
def readUint32 (data : List Byte) : Nat :=
  match data with
  | b0 :: b1 :: b2 :: b3 :: _ => beUint32 b0 b1 b2 b3
  | _ => 0

/-- The function `newPngChunk`: header, then `data[8 : 8+L]`, then the 4 checksum bytes
`data[8+L : 8+L+4]`. -/
def newPngChunk (data : List Byte) : Except Failure ImageChunk :=
  let header := readChunkHeader data
  let headerSize := 8
  let headerAndChunkSize := headerSize + header.ChunkLength
  match goSlice data headerSize headerAndChunkSize with
  | .error e => .error e
  | .ok chunkData =>
    match goSlice data headerAndChunkSize (headerAndChunkSize + 4) with
    | .error e => .error e
    | .ok crcData => .ok { header := header, data := chunkData, crc := readUint32 crcData }

/-- The function `CheckPngFileDataHeader`, that is `bytes.HasPrefix(pngFileData, header)`:
`len(s) >= len(prefix) && Equal(s[:len(prefix)], prefix)`. -/
def CheckPngFileDataHeader (pngFileData : List Byte) : Bool :=
  decide (PngFileHeader.length ≤ pngFileData.length) &&
    decide (pngFileData.take PngFileHeader.length = PngFileHeader)

/-- The struct `PNGImage`. -/
structure PNGImage where
  imageSize : ImageSize
  imageChunks : List ImageChunk
  deriving DecidableEq, Repr

/-- The method `getImageSize`: the size of the first chunk that reports one, else `nil`. -/
def PNGImage.getImageSize (receiver : PNGImage) : Option ImageSize :=
  receiver.imageChunks.findSome? ImageChunk.tryGetImageSize

/-- The method `GetImageSize`. -/
def PNGImage.GetImageSize (receiver : PNGImage) : ImageSize := receiver.imageSize

/-- The method `GetImageChunks`. -/
def PNGImage.GetImageChunks (receiver : PNGImage) : List ImageChunk := receiver.imageChunks

/-- The read loop of `ParsePngFileData`, `for { ... if len(pngData) == 0 { break } }`: the
body runs before the end of the data is tested. The first argument bounds the number of
iterations. -/
def parseLoop : Nat → List Byte → List ImageChunk → Except Failure (List ImageChunk)
  | 0, _, _ => .error .outOfFuel
  | fuel + 1, pngData, pngChunks =>
    match newPngChunk pngData with
    | .error e => .error e
    | .ok imgChunk =>
      match goSliceFrom pngData imgChunk.GetFullChunkLength with
      | .error e => .error e
      | .ok rest =>
        if rest.length = 0 then .ok (pngChunks ++ [imgChunk])
        else parseLoop fuel rest (pngChunks ++ [imgChunk])

/-- The function `ParsePngFileData`. The loop gets one more unit of fuel than there are bytes
after the signature, and every iteration that goes on consumes at least 12 of them. -/
def ParsePngFileData (pngFileData : List Byte) : Except Failure PNGImage :=
  if !CheckPngFileDataHeader pngFileData then .error .errNotPNGFormat
  else
    let pngData := pngFileData.drop PngFileHeader.length
    match parseLoop (pngData.length + 1) pngData [] with
    | .error e => .error e
    | .ok pngChunks =>
      let retPngImg : PNGImage := { imageSize := ⟨0, 0⟩, imageChunks := pngChunks }
      match retPngImg.getImageSize with
      | some imgSize => .ok { retPngImg with imageSize := imgSize }
      | none => .ok { retPngImg with imageSize := ⟨-1, -1⟩ }

/-- The method `SaveToData`: the signature, then every chunk in order. -/
def PNGImage.SaveToData (receiver : PNGImage) : List Byte :=
  receiver.imageChunks.foldl (fun retData imgChunk => retData ++ imgChunk.SaveFullChunkToData)
    PngFileHeader

/-- The polynomial constant `crc32.IEEE` of the Go package `hash/crc32`. -/
def crc32.IEEE : Nat := 0xedb88320

/-- One round of the inner loop of `simplePopulateTable` of `hash/crc32`. -/
def crc32.tableStep (crc : Nat) : Nat :=
  if crc % 2 = 1 then (crc / 2) ^^^ crc32.IEEE else crc / 2

/-- The entry `crc32.IEEETable[i]`: eight rounds on `uint32(i)`. -/
def crc32.IEEETable (i : Nat) : Nat := crc32.tableStep^[8] i

/-- The complement `^crc` of a `uint32`. -/
def crc32.not32 (crc : Nat) : Nat := crc ^^^ 0xFFFFFFFF

/-- The loop body of `simpleUpdate`: `crc = tab[byte(crc)^v] ^ (crc >> 8)`. -/
def crc32.updateByte (crc : Nat) (v : Byte) : Nat :=
  crc32.IEEETable ((crc % 256) ^^^ v.val) ^^^ (crc / 256)

/-- The function `crc32.Update(crc, crc32.IEEETable, p)`, as `simpleUpdate` of `hash/crc32`
computes it: complement, one table step per byte, complement. -/
def crc32.Update (crc : Nat) (p : List Byte) : Nat :=
  crc32.not32 (p.foldl crc32.updateByte (crc32.not32 crc))

/-- The function `crc32.Checksum(data, crc32.IEEETable)`, which is `Update(0, tab, data)`:
the CRC-32 (IEEE) of `data`. -/
def crc32.Checksum (data : List Byte) : Nat := crc32.Update 0 data

/-- The library calls of `Normalize` that are not part of the package: raw inflate of the
collected IDAT bytes (`flate.NewReader` drained by `io.Copy`; `none` when `io.Copy` reports an
error) and zlib compression (`zlib.NewWriter`, `Write`, `Close`, `Bytes`; `none` when `Write`
reports an error). -/
structure Codec where
  flateInflate : List Byte → Option (List Byte)
  zlibCompress : List Byte → Option (List Byte)

/-- The inner loop of the reorder, `for x := 0; x < int(imgSize.Width); x++`, with the number
of iterations still to run: it appends `d[i+2], d[i+1], d[i+0], d[i+3]` for `i = len(newData)`. -/
def reorderPixels (decompressedData : List Byte) : Nat → List Byte → Except Failure (List Byte)
  | 0, newData => .ok newData
  | n + 1, newData =>
    let i := newData.length
    match goIndex decompressedData (i + 2) with
    | .error e => .error e
    | .ok c2 =>
      match goIndex decompressedData (i + 1) with
      | .error e => .error e
      | .ok c1 =>
        match goIndex decompressedData (i + 0) with
        | .error e => .error e
        | .ok c0 =>
          match goIndex decompressedData (i + 3) with
          | .error e => .error e
          | .ok c3 => reorderPixels decompressedData n (newData ++ [c2] ++ [c1] ++ [c0] ++ [c3])

/-- The outer loop of the reorder, `for y := 0; y < int(imgSize.Height); y++`, with the number
of iterations still to run: it appends `d[len(newData)]` and then runs the inner loop. -/
def reorderRows (decompressedData : List Byte) (width : Nat) :
    Nat → List Byte → Except Failure (List Byte)
  | 0, newData => .ok newData
  | n + 1, newData =>
    let i := newData.length
    match goIndex decompressedData i with
    | .error e => .error e
    | .ok f =>
      match reorderPixels decompressedData width (newData ++ [f]) with
      | .error e => .error e
      | .ok newData => reorderRows decompressedData width n newData

/-- The reorder step of `Normalize` (the two nested loops over `newData`): a loop whose bound
is not positive does not run. -/
def reorder (imgSize : ImageSize) (decompressedData : List Byte) : Except Failure (List Byte) :=
  reorderRows decompressedData imgSize.Width.toNat imgSize.Height.toNat []

/-- The chunk the `IEND` case of `Normalize` turns its copy into: length field
`uint32(len(compressedData))`, type `IDAT`, the compressed bytes, and the checksum
`crc32.Update(crc32.Checksum(type), data)`. -/
def rebuiltIDAT (compressedData : List Byte) : ImageChunk :=
  let chunkType : Bytes4 := ⟨0x49, 0x44, 0x41, 0x54⟩
  let chunkTypeCRC := crc32.Checksum chunkType.toList
  { header := { ChunkLength := compressedData.length % 2 ^ 32, ChunkType := chunkType },
    data := compressedData,
    crc := crc32.Update chunkTypeCRC compressedData }

/-- The loop of `Normalize` over the chunks still to visit, with the state it carries: the
output chunks `imgChunks` and the accumulator `allIDAT`. `imgSize` is the pointer that
`getImageSize` returned before the loop; it is dereferenced only in the `IEND` case, after
the inflate. -/
def normalizeLoop (codec : Codec) (imgSize : Option ImageSize) :
    List ImageChunk → List ImageChunk → List Byte → Except Failure (List ImageChunk)
  | [], imgChunks, _ => .ok imgChunks
  | chunk :: rest, imgChunks, allIDAT =>
    let chunkCopy := chunk.Copy
    if chunkCopy.header.GetChunkType = tagIDAT then
      normalizeLoop codec imgSize rest imgChunks (allIDAT ++ chunkCopy.data)
    else if chunkCopy.header.GetChunkType = tagCgBI then
      normalizeLoop codec imgSize rest imgChunks allIDAT
    else if chunkCopy.header.GetChunkType = tagIEND then
      match codec.flateInflate allIDAT with
      | none => .error .errFlate
      | some decompressedData =>
        match imgSize with
        | none => .error .panicNil
        | some size =>
          match reorder size decompressedData with
          | .error e => .error e
          | .ok newData =>
            match codec.zlibCompress newData with
            | none => .error .errZlib
            | some compressedData =>
              normalizeLoop codec imgSize rest (imgChunks ++ [rebuiltIDAT compressedData]) allIDAT
    else
      normalizeLoop codec imgSize rest (imgChunks ++ [chunkCopy]) allIDAT

/-- The method `Normalize`. The image it returns has the zero `imageSize`: only
`imageChunks` is assigned. -/
def PNGImage.Normalize (codec : Codec) (receiver : PNGImage) : Except Failure PNGImage :=
  match normalizeLoop codec receiver.getImageSize receiver.imageChunks [] [] with
  | .error e => .error e
  | .ok imgChunks => .ok { imageSize := ⟨0, 0⟩, imageChunks := imgChunks }

/-- The chunks the reader builds: the length field is the payload length, and length and
checksum are `uint32` values. -/
def ImageChunk.WellFormed (c : ImageChunk) : Prop :=
  c.header.ChunkLength = c.data.length ∧ c.data.length < 2 ^ 32 ∧ c.crc < 2 ^ 32

/-- The bytes of a chunk sequence on the wire, one record after the other. -/
def wireBytes : List ImageChunk → List Byte
  | [] => []
  | c :: cs => c.SaveFullChunkToData ++ wireBytes cs

/-- The length a chunk start declares: the big-endian `uint32` in its first four bytes. -/
def declaredLength : List Byte → Option Nat
  | b0 :: b1 :: b2 :: b3 :: _ => some (beUint32 b0 b1 b2 b3)
  | _ => none

/-- A chunk stream in which some chunk declares a length `L` whose payload or checksum would
end past the end of the data: either the chunk at the front, or one reached by skipping
complete records of `12 + L` bytes. -/
inductive Truncated : List Byte → Prop where
  | here (data : List Byte) (L : Nat) :
      declaredLength data = some L → data.length < 12 + L → Truncated data
  | later (data : List Byte) (L : Nat) :
      declaredLength data = some L → 12 + L ≤ data.length →
      Truncated (data.drop (12 + L)) → Truncated data

/-- A chunk of a well-formed stream as it is described on the wire: a 4-byte type tag, the
payload and the checksum. -/
structure ChunkRecord where
  typeTag : Bytes4
  payload : List Byte
  checksum : Nat
  deriving DecidableEq, Repr

/-- The wire form `BE32(len(payload)) ++ type ++ payload ++ BE32(checksum)` of a record. -/
def ChunkRecord.enc (r : ChunkRecord) : List Byte :=
  putUint32 r.payload.length ++ r.typeTag.toList ++ r.payload ++ putUint32 r.checksum

/-- The wire form of a sequence of records. -/
def encodeStream : List ChunkRecord → List Byte
  | [] => []
  | r :: rs => r.enc ++ encodeStream rs

/-- The `ImageChunk` that stands for a record: same type, payload and checksum, and the
payload length as length field. -/
def ChunkRecord.toChunk (r : ChunkRecord) : ImageChunk :=
  { header := { ChunkLength := r.payload.length, ChunkType := r.typeTag },
    data := r.payload, crc := r.checksum }

/-- A file that holds the signature and one empty `CgBI` chunk. -/
def cgbiOnlyFile : List Byte :=
  PngFileHeader ++ [0, 0, 0, 0, 0x43, 0x67, 0x42, 0x49, 40, 50, 33, 217]

/-- Three records: `IHDR` of a 1 x 1 image, `IEND`, and a `tEXt` record after it. -/
def sampleRecords : List ChunkRecord :=
  [{ typeTag := ⟨0x49, 0x48, 0x44, 0x52⟩, payload := [0, 0, 0, 1, 0, 0, 0, 1, 8, 6, 0, 0, 0],
     checksum := 521520265 },
   { typeTag := ⟨0x49, 0x45, 0x4E, 0x44⟩, payload := [], checksum := 2923585666 },
   { typeTag := ⟨0x74, 0x45, 0x58, 0x74⟩, payload := [0x41, 0, 0x42], checksum := 7 }]

/-- A file whose only chunk declares 5 payload bytes and holds 2. -/
def truncatedFile : List Byte :=
  PngFileHeader ++ [0, 0, 0, 5, 0x49, 0x44, 0x41, 0x54, 1, 2]

/-- A file with a complete empty `IEND` chunk followed by a chunk that declares 5 payload
bytes and holds none. -/
def truncatedSecondChunkFile : List Byte :=
  PngFileHeader ++ [0, 0, 0, 0, 0x49, 0x45, 0x4E, 0x44, 174, 66, 96, 130] ++
    [0, 0, 0, 5, 0x49, 0x44, 0x41, 0x54]

/-- The test `chunk.header.GetChunkType() == tag` on a chunk. -/
def ImageChunk.hasType (c : ImageChunk) (tag : List Byte) : Bool :=
  decide (c.header.GetChunkType = tag)

/-- The concatenation, in order of occurrence, of the payloads of the `IDAT` chunks of a chunk
sequence: what the accumulator `allIDAT` of `Normalize` is said to hold once the loop has
visited these chunks. -/
def collectIDAT : List ImageChunk → List Byte
  | [] => []
  | c :: cs => if c.hasType tagIDAT then c.data ++ collectIDAT cs else collectIDAT cs

/-- The relation between an input chunk that `Normalize` does not skip and the chunk appended
for it when the call succeeds: an `IEND` chunk leaves a rebuilt `IDAT` chunk whose payload is
the compressed reorder of some inflated raster, any other chunk leaves its copy. -/
def Emitted (codec : Codec) (imgSize : Option ImageSize) (cin cout : ImageChunk) : Prop :=
  cin.hasType tagIDAT = false ∧ cin.hasType tagCgBI = false ∧
  ((cin.hasType tagIEND = true ∧
      ∃ size d raster comp, imgSize = some size ∧ reorder size d = .ok raster ∧
        codec.zlibCompress raster = some comp ∧ cout = rebuiltIDAT comp) ∨
   (cin.hasType tagIEND = false ∧ cout = cin))

/-- Raw inflate restricted to the streams made of one final stored block (header bits
`BFINAL = 1`, `BTYPE = 00`, then `LEN`, its complement `NLEN`, and `LEN` literal bytes); `none`
on any other stream. Used to exercise the statements, which hold for every `Codec`. -/
def inflateStored : List Byte → Option (List Byte)
  | hdr :: l0 :: l1 :: n0 :: n1 :: rest =>
    if hdr.val % 8 = 1 ∧ l0.val + n0.val = 255 ∧ l1.val + n1.val = 255 ∧
        l0.val + 256 * l1.val ≤ rest.length then
      some (rest.take (l0.val + 256 * l1.val))
    else none
  | _ => none

/-- A codec to exercise the statements with: stored-block inflate, and a compressor that
stores the raster as it is (the statements never look into the compressed bytes). -/
def sampleCodec : Codec :=
  { flateInflate := inflateStored, zlibCompress := fun raster => some raster }

/-- The `IHDR` chunk of an image of 1 x 1 pixel, 8-bit RGBA. -/
def sampleIHDR : ImageChunk :=
  { header := { ChunkLength := 13, ChunkType := ⟨0x49, 0x48, 0x44, 0x52⟩ },
    data := [0, 0, 0, 1, 0, 0, 0, 1, 8, 6, 0, 0, 0], crc := 521520265 }

/-- An `IDAT` chunk holding the stored-block deflate stream of the raster
`[0x00, 0x10, 0x20, 0x30, 0xFF]`. -/
def sampleIDAT : ImageChunk :=
  { header := { ChunkLength := 10, ChunkType := ⟨0x49, 0x44, 0x41, 0x54⟩ },
    data := [0x01, 0x05, 0x00, 0xFA, 0xFF, 0x00, 0x10, 0x20, 0x30, 0xFF], crc := 995030873 }

/-- The empty `IEND` chunk. -/
def sampleIEND : ImageChunk :=
  { header := { ChunkLength := 0, ChunkType := ⟨0x49, 0x45, 0x4E, 0x44⟩ },
    data := [], crc := 2923585666 }

/-- An image of 1 x 1 pixel: `IHDR`, one `IDAT` chunk and `IEND`. -/
def sampleImage : PNGImage :=
  { imageSize := ⟨1, 1⟩, imageChunks := [sampleIHDR, sampleIDAT] ++ sampleIEND :: [] }

/-- What `Normalize` returns on `sampleImage` with `sampleCodec`: the `IHDR` chunk and the
rebuilt `IDAT` chunk. -/
def sampleNormalized : PNGImage :=
  { imageSize := ⟨0, 0⟩,
    imageChunks :=
      [{ header := { ChunkLength := 13, ChunkType := ⟨0x49, 0x48, 0x44, 0x52⟩ },
         data := [0, 0, 0, 1, 0, 0, 0, 1, 8, 6, 0, 0, 0], crc := 521520265 },
       { header := { ChunkLength := 5, ChunkType := ⟨0x49, 0x44, 0x41, 0x54⟩ },
         data := [0x00, 0x30, 0x20, 0x10, 0xFF], crc := 3811187284 }] }

/-- A file that holds the signature and the `IHDR` chunk of a 1 x 1 image. -/
def ihdrOnlyFile : List Byte :=
  PngFileHeader ++
    [0, 0, 0, 13, 0x49, 0x48, 0x44, 0x52, 0, 0, 0, 1, 0, 0, 0, 1, 8, 6, 0, 0, 0, 31, 21, 196, 137]

/-- The image `ParsePngFileData` returns on `ihdrOnlyFile`. -/
def ihdrOnlyImage : PNGImage :=
  { imageSize := ⟨1, 1⟩,
    imageChunks :=
      [{ header := { ChunkLength := 13, ChunkType := ⟨0x49, 0x48, 0x44, 0x52⟩ },
         data := [0, 0, 0, 1, 0, 0, 0, 1, 8, 6, 0, 0, 0], crc := 521520265 }] }

/-- The image `ParsePngFileData` returns on `cgbiOnlyFile`: no `IHDR`, size unknown. -/
def cgbiOnlyImage : PNGImage :=
  { imageSize := ⟨-1, -1⟩,
    imageChunks :=
      [{ header := { ChunkLength := 0, ChunkType := ⟨0x43, 0x67, 0x42, 0x49⟩ },
         data := [], crc := 674374105 }] }

/-- The empty `CgBI` chunk of `cgbiOnlyFile`. -/
def sampleCgBI : ImageChunk :=
  { header := { ChunkLength := 0, ChunkType := ⟨0x43, 0x67, 0x42, 0x49⟩ },
    data := [], crc := 674374105 }

/-- An `IDAT` chunk holding the first 4 bytes of the payload of `sampleIDAT`. -/
def sampleIDATFirst : ImageChunk :=
  { header := { ChunkLength := 4, ChunkType := ⟨0x49, 0x44, 0x41, 0x54⟩ },
    data := [0x01, 0x05, 0x00, 0xFA], crc := 1 }

/-- An `IDAT` chunk holding the last 6 bytes of the payload of `sampleIDAT`. -/
def sampleIDATSecond : ImageChunk :=
  { header := { ChunkLength := 6, ChunkType := ⟨0x49, 0x44, 0x41, 0x54⟩ },
    data := [0xFF, 0x00, 0x10, 0x20, 0x30, 0xFF], crc := 2 }

/-- A file whose first chunk is `tEXt` and whose second chunk is the `IHDR` of an image of
width `-2` (bytes `FF FF FF FE`) and height `258` (bytes `00 00 01 02`). -/
def signedSizeFile : List Byte :=
  PngFileHeader ++ [0, 0, 0, 1, 0x74, 0x45, 0x58, 0x74, 0x41, 0, 0, 0, 7] ++
    [0, 0, 0, 8, 0x49, 0x48, 0x44, 0x52, 0xFF, 0xFF, 0xFF, 0xFE, 0, 0, 1, 2, 0, 0, 0, 9]

/-- The image `ParsePngFileData` returns on `signedSizeFile`. -/
def signedSizeImage : PNGImage :=
  { imageSize := ⟨-2, 258⟩,
    imageChunks :=
      [{ header := { ChunkLength := 1, ChunkType := ⟨0x74, 0x45, 0x58, 0x74⟩ },
         data := [0x41], crc := 7 },
       { header := { ChunkLength := 8, ChunkType := ⟨0x49, 0x48, 0x44, 0x52⟩ },
         data := [0xFF, 0xFF, 0xFF, 0xFE, 0, 0, 1, 2], crc := 9 }] }

/-- The images a caller of the package can hold, the fields of `PNGImage` being unexported:
the zero value, what `ParsePngFileData` returns, and what `Normalize` returns on such an
image. -/
inductive Reachable (codec : Codec) : PNGImage → Prop where
  | zero : Reachable codec { imageSize := ⟨0, 0⟩, imageChunks := [] }
  | parse (buf : List Byte) (img : PNGImage) :
      ParsePngFileData buf = .ok img → Reachable codec img
  | normalize (img out : PNGImage) :
      Reachable codec img → img.Normalize codec = .ok out → Reachable codec out

/-- What `compress/zlib` and `compress/flate` guarantee of a `Codec`: the zlib writer accepts
every buffer, its output determines the buffer (the zlib inflate inverts it), and every buffer
is the raw inflate of some stream (of its stored-block encoding, for instance). -/
structure Codec.Lossless (codec : Codec) : Prop where
  compress_total : ∀ raster, ∃ z, codec.zlibCompress raster = some z
  compress_injective : ∀ r1 r2 z,
    codec.zlibCompress r1 = some z → codec.zlibCompress r2 = some z → r1 = r2
  inflate_onto : ∀ d, ∃ x, codec.flateInflate x = some d

/-- The codec that stores buffers as they are, in both directions. -/
def plainCodec : Codec := { flateInflate := some, zlibCompress := some }

/-- An `IDAT` chunk whose payload is the single byte `b`. -/
def idatByte (b : Byte) : ImageChunk :=
  { header := { ChunkLength := 1, ChunkType := ⟨0x49, 0x44, 0x41, 0x54⟩ }, data := [b], crc := 0 }

/-- The `IHDR` chunk of an image of 32768 x 32768 pixels, 8-bit RGBA. -/
def hugeIHDR : ImageChunk :=
  { header := { ChunkLength := 13, ChunkType := ⟨0x49, 0x48, 0x44, 0x52⟩ },
    data := [0, 0, 0x80, 0, 0, 0, 0x80, 0, 8, 6, 0, 0, 0], crc := 3 }

end iospng

namespace iospng

/-! ## Byte order -/

theorem beUint32_lt (b0 b1 b2 b3 : Byte) : beUint32 b0 b1 b2 b3 < 2 ^ 32 := by
  have h0 := b0.isLt
  have h1 := b1.isLt
  have h2 := b2.isLt
  have h3 := b3.isLt
  unfold beUint32
  omega

theorem putUint32_beUint32 (b0 b1 b2 b3 : Byte) :
    putUint32 (beUint32 b0 b1 b2 b3) = [b0, b1, b2, b3] := by
  have h0 := b0.isLt
  have h1 := b1.isLt
  have h2 := b2.isLt
  have h3 := b3.isLt
  simp only [putUint32, beUint32, List.cons.injEq, and_true]
  refine ⟨?_, ?_, ?_, ?_⟩ <;> apply Fin.ext <;> simp only <;> omega

theorem readUint32_putUint32 (v : Nat) (hv : v < 2 ^ 32) (rest : List Byte) :
    readUint32 (putUint32 v ++ rest) = v := by
  simp only [putUint32, readUint32, beUint32, List.cons_append, List.nil_append]
  omega

theorem readChunkHeader_put (L : Nat) (hL : L < 2 ^ 32) (t : Bytes4) (rest : List Byte) :
    readChunkHeader (putUint32 L ++ t.toList ++ rest) = { ChunkLength := L, ChunkType := t } := by
  simp only [putUint32, Bytes4.toList, readChunkHeader, beUint32, List.cons_append,
    List.nil_append]
  congr 1
  omega

theorem length_putUint32 (v : Nat) : (putUint32 v).length = 4 := rfl

/-! ## Slices -/

theorem goSlice_append (a b c : List Byte) :
    goSlice (a ++ (b ++ c)) a.length (a.length + b.length) = .ok b := by
  simp [goSlice]

theorem goSliceFrom_append (a b : List Byte) : goSliceFrom (a ++ b) a.length = .ok b := by
  simp [goSliceFrom]

/-! ## The reader on one encoded record -/

theorem newPngChunk_save (c : ImageChunk) (hc : c.WellFormed) (rest : List Byte) :
    newPngChunk (c.SaveFullChunkToData ++ rest) = .ok c := by
  obtain ⟨hlen, hlt, hcrc⟩ := hc
  have hhdr : readChunkHeader (c.SaveFullChunkToData ++ rest) = c.header := by
    have := readChunkHeader_put c.header.ChunkLength (by omega) c.header.ChunkType
      (c.data ++ putUint32 c.crc ++ rest)
    simpa [ImageChunk.SaveFullChunkToData, List.append_assoc] using this
  have h1 : goSlice (c.SaveFullChunkToData ++ rest) 8 (8 + c.header.ChunkLength) = .ok c.data := by
    have := goSlice_append (putUint32 c.header.ChunkLength ++ c.header.ChunkType.toList) c.data
      (putUint32 c.crc ++ rest)
    simpa [ImageChunk.SaveFullChunkToData, List.append_assoc, length_putUint32, Bytes4.toList,
      hlen] using this
  have h2 : goSlice (c.SaveFullChunkToData ++ rest) (8 + c.header.ChunkLength)
      (8 + c.header.ChunkLength + 4) = .ok (putUint32 c.crc) := by
    have := goSlice_append (putUint32 c.header.ChunkLength ++ c.header.ChunkType.toList ++ c.data)
      (putUint32 c.crc) rest
    have hX : (putUint32 c.header.ChunkLength ++ c.header.ChunkType.toList ++ c.data).length
        = 8 + c.header.ChunkLength := by
      simp only [List.length_append, length_putUint32, Bytes4.toList, List.length_cons,
        List.length_nil]
      omega
    rw [hX, length_putUint32] at this
    simpa [ImageChunk.SaveFullChunkToData, List.append_assoc] using this
  have h3 : readUint32 (putUint32 c.crc) = c.crc := by
    simpa using readUint32_putUint32 c.crc hcrc []
  simp only [newPngChunk, hhdr, h1, h2, h3]

theorem length_save (c : ImageChunk) :
    c.SaveFullChunkToData.length = 8 + c.data.length + 4 := by
  simp [ImageChunk.SaveFullChunkToData, length_putUint32, Bytes4.toList]
  omega

theorem advance_save (c : ImageChunk) (hc : c.WellFormed) (rest : List Byte) :
    goSliceFrom (c.SaveFullChunkToData ++ rest) c.GetFullChunkLength = .ok rest := by
  obtain ⟨hlen, -, -⟩ := hc
  have h := goSliceFrom_append c.SaveFullChunkToData rest
  rw [length_save] at h
  simpa [ImageChunk.GetFullChunkLength, hlen] using h

end iospng

namespace iospng

/-! ## The reader on a stream of encoded records -/

theorem wireBytes_cons_length (c : ImageChunk) (cs : List ImageChunk) :
    (wireBytes (c :: cs)).length = 12 + c.data.length + (wireBytes cs).length := by
  simp only [wireBytes, List.length_append, length_save]
  omega

theorem parseLoop_wire (cs : List ImageChunk) :
    ∀ (c : ImageChunk) (fuel : Nat) (acc : List ImageChunk),
      (∀ x ∈ c :: cs, x.WellFormed) → (wireBytes (c :: cs)).length < fuel →
      parseLoop fuel (wireBytes (c :: cs)) acc = .ok (acc ++ c :: cs) := by
  induction cs with
  | nil =>
    intro c fuel acc hwf hfuel
    cases fuel with
    | zero => omega
    | succ f =>
      have hc : c.WellFormed := hwf c (List.mem_cons_self _ _)
      have h1 := newPngChunk_save c hc []
      have h2 := advance_save c hc []
      rw [List.append_nil] at h1 h2
      simp [parseLoop, wireBytes, h1, h2]
  | cons c2 cs ih =>
    intro c fuel acc hwf hfuel
    cases fuel with
    | zero => omega
    | succ f =>
      have hc : c.WellFormed := hwf c (List.mem_cons_self _ _)
      have hrest : ∀ x ∈ c2 :: cs, x.WellFormed := fun x hx => hwf x (List.mem_cons_of_mem _ hx)
      have hlen := wireBytes_cons_length c (c2 :: cs)
      have hlen2 := wireBytes_cons_length c2 cs
      have hne : (wireBytes (c2 :: cs)).length ≠ 0 := by omega
      have hstep : parseLoop (f + 1) (wireBytes (c :: c2 :: cs)) acc
          = parseLoop f (wireBytes (c2 :: cs)) (acc ++ [c]) := by
        conv_lhs => rw [wireBytes, parseLoop]
        simp only [newPngChunk_save c hc, advance_save c hc, hne, if_false]
      rw [hstep, ih c2 f (acc ++ [c]) hrest (by omega)]
      simp

theorem saveToData_eq (img : PNGImage) :
    img.SaveToData = PngFileHeader ++ wireBytes img.imageChunks := by
  have key : ∀ (cs : List ImageChunk) (init : List Byte),
      cs.foldl (fun retData imgChunk => retData ++ imgChunk.SaveFullChunkToData) init
        = init ++ wireBytes cs := by
    intro cs
    induction cs with
    | nil => intro init; simp [wireBytes]
    | cons c cs ih => intro init; simp [wireBytes, ih, List.append_assoc]
  exact key _ _

theorem checkHeader_iff (buf : List Byte) :
    CheckPngFileDataHeader buf = true ↔ PngFileHeader <+: buf := by
  simp only [CheckPngFileDataHeader, Bool.and_eq_true, decide_eq_true_eq]
  constructor
  · rintro ⟨-, h⟩
    exact List.prefix_iff_eq_take.mpr h.symm
  · intro h
    exact ⟨h.length_le, (List.prefix_iff_eq_take.mp h).symm⟩

theorem parse_of_loop_ok (data : List Byte) (cs : List ImageChunk)
    (h : parseLoop (data.length + 1) data [] = .ok cs) :
    ∃ img, ParsePngFileData (PngFileHeader ++ data) = .ok img ∧ img.imageChunks = cs := by
  have hchk : CheckPngFileDataHeader (PngFileHeader ++ data) = true :=
    (checkHeader_iff _).mpr (List.prefix_append _ _)
  have hdrop : (PngFileHeader ++ data).drop PngFileHeader.length = data := List.drop_left _ _
  unfold ParsePngFileData
  simp only [hchk, Bool.not_true, Bool.false_eq_true, if_false, hdrop, h]
  split <;> exact ⟨_, rfl, rfl⟩

theorem parse_of_loop_error (data : List Byte) (e : Failure)
    (h : parseLoop (data.length + 1) data [] = .error e) :
    ParsePngFileData (PngFileHeader ++ data) = .error e := by
  have hchk : CheckPngFileDataHeader (PngFileHeader ++ data) = true :=
    (checkHeader_iff _).mpr (List.prefix_append _ _)
  have hdrop : (PngFileHeader ++ data).drop PngFileHeader.length = data := List.drop_left _ _
  unfold ParsePngFileData
  simp only [hchk, Bool.not_true, Bool.false_eq_true, if_false, hdrop, h]

theorem parse_wire (c : ImageChunk) (cs : List ImageChunk) (hwf : ∀ x ∈ c :: cs, x.WellFormed) :
    ∃ img, ParsePngFileData (PngFileHeader ++ wireBytes (c :: cs)) = .ok img ∧
      img.imageChunks = c :: cs := by
  apply parse_of_loop_ok
  simpa using parseLoop_wire cs c _ [] hwf (Nat.lt_succ_self _)

end iospng

namespace iospng

/-! ## Truncated streams -/

theorem truncated_length (data : List Byte) (h : Truncated data) : 4 ≤ data.length := by
  have key : ∀ (d : List Byte) (L : Nat), declaredLength d = some L → 4 ≤ d.length := by
    intro d L hd
    rcases d with _ | ⟨b0, _ | ⟨b1, _ | ⟨b2, _ | ⟨b3, tail⟩⟩⟩⟩ <;>
      simp [declaredLength] at hd ⊢
  cases h with
  | here _ L hd _ => exact key _ L hd
  | later _ L hd _ _ => exact key _ L hd

theorem newPngChunk_truncated (data : List Byte) (L : Nat) (hd : declaredLength data = some L)
    (hlen : data.length < 12 + L) : newPngChunk data = .error .panicSlice := by
  rcases data with _ | ⟨b0, _ | ⟨b1, _ | ⟨b2, _ | ⟨b3, tail⟩⟩⟩⟩ <;>
    simp only [declaredLength, Option.some.injEq, reduceCtorEq] at hd
  subst hd
  rcases tail with _ | ⟨t0, _ | ⟨t1, _ | ⟨t2, _ | ⟨t3, rest⟩⟩⟩⟩
  · simp [newPngChunk, readChunkHeader, goSlice]
  · simp [newPngChunk, readChunkHeader, goSlice]
  · simp [newPngChunk, readChunkHeader, goSlice]
  · simp [newPngChunk, readChunkHeader, goSlice]
  · simp only [List.length_cons] at hlen
    simp only [newPngChunk, readChunkHeader, goSlice, List.length_cons]
    by_cases h1 : 8 + beUint32 b0 b1 b2 b3 ≤ rest.length + 1 + 1 + 1 + 1 + 1 + 1 + 1 + 1
    · have h2 : ¬ (8 + beUint32 b0 b1 b2 b3 + 4 ≤ rest.length + 1 + 1 + 1 + 1 + 1 + 1 + 1 + 1) := by
        omega
      simp [h1, h2]
    · simp [h1]

theorem newPngChunk_complete (data : List Byte) (L : Nat) (hd : declaredLength data = some L)
    (hlen : 12 + L ≤ data.length) :
    ∃ c, newPngChunk data = .ok c ∧ c.GetFullChunkLength = 12 + L := by
  rcases data with _ | ⟨b0, _ | ⟨b1, _ | ⟨b2, _ | ⟨b3, tail⟩⟩⟩⟩ <;>
    simp only [declaredLength, Option.some.injEq, reduceCtorEq] at hd
  subst hd
  rcases tail with _ | ⟨t0, _ | ⟨t1, _ | ⟨t2, _ | ⟨t3, rest⟩⟩⟩⟩ <;>
    simp only [List.length_cons, List.length_nil] at hlen <;> try omega
  have h1 : 8 + beUint32 b0 b1 b2 b3 ≤ rest.length + 1 + 1 + 1 + 1 + 1 + 1 + 1 + 1 := by omega
  have h2 : 8 + beUint32 b0 b1 b2 b3 + 4 ≤ rest.length + 1 + 1 + 1 + 1 + 1 + 1 + 1 + 1 := by
    omega
  simp only [newPngChunk, readChunkHeader, goSlice, List.length_cons, h1, h2,
    Nat.le_add_right, and_self, if_true]
  refine ⟨_, rfl, ?_⟩
  simp only [ImageChunk.GetFullChunkLength]
  omega

theorem parseLoop_truncated (data : List Byte) (h : Truncated data) :
    ∀ (fuel : Nat) (acc : List ImageChunk), data.length < fuel →
      parseLoop fuel data acc = .error .panicSlice := by
  induction h with
  | here data L hd hlen =>
    intro fuel acc hfuel
    cases fuel with
    | zero => omega
    | succ f => simp [parseLoop, newPngChunk_truncated data L hd hlen]
  | later data L hd hlen htr ih =>
    intro fuel acc hfuel
    cases fuel with
    | zero => omega
    | succ f =>
      obtain ⟨c, hc, hfull⟩ := newPngChunk_complete data L hd hlen
      have hrest := truncated_length _ htr
      have hdl : (data.drop (12 + L)).length = data.length - (12 + L) := List.length_drop _ _
      have hne : (data.drop (12 + L)).length ≠ 0 := by omega
      rw [parseLoop]
      simp only [hc, hfull, goSliceFrom, hlen, if_true, hne, if_false]
      exact ih f _ (by omega)

end iospng

namespace iospng

/-! ## Reader and writer: the claims -/

/-- C1: the round trip breaks on the image with no chunks. The file `cgbiOnlyFile` parses, its
normalization succeeds with every codec and has no chunk at all, the writer turns that image
into the bare signature, and the reader does not return on the bare signature: the body of
its loop runs before the end of the data is tested, and `newPngChunk` slices `data[8:8]` out of
an empty slice. -/
theorem roundtrip_empty_image_panics :
    (∀ codec : Codec, ∃ img0, ParsePngFileData cgbiOnlyFile = .ok img0 ∧
      img0.Normalize codec = .ok { imageSize := ⟨0, 0⟩, imageChunks := [] }) ∧
    PNGImage.SaveToData { imageSize := ⟨0, 0⟩, imageChunks := [] } = PngFileHeader ∧
    ParsePngFileData (PNGImage.SaveToData { imageSize := ⟨0, 0⟩, imageChunks := [] })
      = .error .panicSlice :=
  ⟨fun _ => ⟨_, rfl, rfl⟩, rfl, rfl⟩

theorem roundtrip_nonempty (img : PNGImage) (hne : img.imageChunks ≠ [])
    (hwf : ∀ c ∈ img.imageChunks, c.WellFormed) :
    ∃ parsed, ParsePngFileData img.SaveToData = .ok parsed ∧
      parsed.imageChunks = img.imageChunks ∧ parsed.SaveToData = img.SaveToData := by
  obtain ⟨size, chunks⟩ := img
  cases chunks with
  | nil => exact absurd rfl hne
  | cons c cs =>
    obtain ⟨parsed, hp, hchunks⟩ := parse_wire c cs hwf
    refine ⟨parsed, ?_, hchunks, ?_⟩
    · rw [saveToData_eq]; exact hp
    · rw [saveToData_eq, saveToData_eq, hchunks]

theorem readUint32_lt (data : List Byte) : readUint32 data < 2 ^ 32 := by
  unfold readUint32
  split
  · exact beUint32_lt _ _ _ _
  · decide

theorem newPngChunk_wellFormed (data : List Byte) (c : ImageChunk)
    (h : newPngChunk data = .ok c) : c.WellFormed := by
  have hlt : (readChunkHeader data).ChunkLength < 2 ^ 32 := by
    unfold readChunkHeader
    split
    · exact beUint32_lt _ _ _ _
    · decide
  unfold newPngChunk at h
  simp only [] at h
  cases h1 : goSlice data 8 (8 + (readChunkHeader data).ChunkLength) with
  | error e => simp [h1] at h
  | ok chunkData =>
    cases h2 : goSlice data (8 + (readChunkHeader data).ChunkLength)
        (8 + (readChunkHeader data).ChunkLength + 4) with
    | error e => simp [h1, h2] at h
    | ok crcData =>
      simp only [h1, h2, Except.ok.injEq] at h
      subst h
      have hl : chunkData.length = (readChunkHeader data).ChunkLength := by
        unfold goSlice at h1
        split at h1
        · simp only [Except.ok.injEq] at h1
          subst h1
          simp only [List.length_take, List.length_drop]
          omega
        · simp at h1
      exact ⟨hl.symm, by simp only []; omega, readUint32_lt crcData⟩

theorem parseLoop_wellFormed :
    ∀ (fuel : Nat) (data : List Byte) (acc out : List ImageChunk),
      parseLoop fuel data acc = .ok out → (∀ c ∈ acc, c.WellFormed) →
      out ≠ [] ∧ ∀ c ∈ out, c.WellFormed := by
  intro fuel
  induction fuel with
  | zero => intro data acc out h; simp [parseLoop] at h
  | succ f ih =>
    intro data acc out h hacc
    rw [parseLoop] at h
    cases h1 : newPngChunk data with
    | error e => simp [h1] at h
    | ok imgChunk =>
      have hnew := newPngChunk_wellFormed data imgChunk h1
      have hacc2 : ∀ c ∈ acc ++ [imgChunk], c.WellFormed := by
        intro c hc
        rcases List.mem_append.mp hc with hc | hc
        · exact hacc c hc
        · rw [List.mem_singleton] at hc
          subst hc
          exact hnew
      cases h2 : goSliceFrom data imgChunk.GetFullChunkLength with
      | error e => simp [h1, h2] at h
      | ok rest =>
        simp only [h1, h2] at h
        split at h
        · simp only [Except.ok.injEq] at h
          subst h
          exact ⟨by simp, hacc2⟩
        · exact ih _ _ _ h hacc2

theorem parse_wellFormed (buf : List Byte) (img : PNGImage)
    (h : ParsePngFileData buf = .ok img) :
    img.imageChunks ≠ [] ∧ ∀ c ∈ img.imageChunks, c.WellFormed := by
  unfold ParsePngFileData at h
  split at h
  · simp at h
  · simp only [] at h
    split at h
    · simp at h
    · rename_i pngChunks hl
      have key := parseLoop_wellFormed _ _ _ _ hl (by simp)
      split at h <;>
        · simp only [Except.ok.injEq] at h
          subst h
          exact key

theorem roundtrip_parsed (buf : List Byte) (img : PNGImage)
    (h : ParsePngFileData buf = .ok img) :
    ∃ parsed, ParsePngFileData img.SaveToData = .ok parsed ∧
      parsed.imageChunks = img.imageChunks ∧ parsed.SaveToData = img.SaveToData :=
  roundtrip_nonempty img (parse_wellFormed buf img h).1 (parse_wellFormed buf img h).2

theorem toChunk_wellFormed (r : ChunkRecord)
    (h : r.payload.length < 2 ^ 32 ∧ r.checksum < 2 ^ 32) : r.toChunk.WellFormed :=
  ⟨rfl, h.1, h.2⟩

theorem encodeStream_eq (rs : List ChunkRecord) :
    encodeStream rs = wireBytes (rs.map ChunkRecord.toChunk) := by
  induction rs with
  | nil => rfl
  | cons r rs ih =>
    simp only [encodeStream, List.map_cons, wireBytes, ih]
    rfl

/-- C2: on the signature followed by the encodings of a non-empty list of records (payloads
shorter than `2 ^ 32` bytes, 32-bit checksums) the reader returns an image whose chunks are
exactly those records in order, whatever their type tags (a record after `IEND` is read like
any other); and on each record followed by any bytes, `newPngChunk` returns that record with
full length `12 + L`, and the cursor advance by that length leaves exactly the bytes that
follow. -/
theorem parse_wellformed_stream (records : List ChunkRecord) (hne : records ≠ [])
    (hwf : ∀ r ∈ records, r.payload.length < 2 ^ 32 ∧ r.checksum < 2 ^ 32) :
    (∃ img, ParsePngFileData (PngFileHeader ++ encodeStream records) = .ok img ∧
      img.imageChunks = records.map ChunkRecord.toChunk) ∧
    (∀ r ∈ records, ∀ rest : List Byte,
      newPngChunk (r.enc ++ rest) = .ok r.toChunk ∧
      r.toChunk.GetFullChunkLength = 12 + r.payload.length ∧
      goSliceFrom (r.enc ++ rest) r.toChunk.GetFullChunkLength = .ok rest) := by
  constructor
  · cases records with
    | nil => exact absurd rfl hne
    | cons r rs =>
      rw [encodeStream_eq]
      apply parse_wire
      intro x hx
      rw [← List.map_cons, List.mem_map] at hx
      obtain ⟨y, hy, rfl⟩ := hx
      exact toChunk_wellFormed y (hwf y hy)
  · intro r hr rest
    have hc := toChunk_wellFormed r (hwf r hr)
    refine ⟨newPngChunk_save r.toChunk hc rest, ?_, advance_save r.toChunk hc rest⟩
    simp only [ImageChunk.GetFullChunkLength, ChunkRecord.toChunk]
    omega

/-- C2, at `sampleRecords`, where a `tEXt` record follows `IEND`. -/
theorem parse_wellformed_stream_witness :
    (sampleRecords ≠ [] ∧
      ∀ r ∈ sampleRecords, r.payload.length < 2 ^ 32 ∧ r.checksum < 2 ^ 32) ∧
    (∃ img, ParsePngFileData (PngFileHeader ++ encodeStream sampleRecords) = .ok img ∧
      img.imageChunks = sampleRecords.map ChunkRecord.toChunk) ∧
    (∀ r ∈ sampleRecords, ∀ rest : List Byte,
      newPngChunk (r.enc ++ rest) = .ok r.toChunk ∧
      r.toChunk.GetFullChunkLength = 12 + r.payload.length ∧
      goSliceFrom (r.enc ++ rest) r.toChunk.GetFullChunkLength = .ok rest) :=
  have hne : sampleRecords ≠ [] := by simp [sampleRecords]
  have hwf : ∀ r ∈ sampleRecords, r.payload.length < 2 ^ 32 ∧ r.checksum < 2 ^ 32 := by
    simp [sampleRecords]
  ⟨⟨hne, hwf⟩, parse_wellformed_stream sampleRecords hne hwf⟩

/-- C3: a buffer that does not begin with the 8 signature bytes (in particular one shorter
than 8 bytes) makes `ParsePngFileData` return the error `ErrNotPNGFormat` and no image, and
`CheckPngFileDataHeader` is true exactly on the buffers that begin with those 8 bytes. -/
theorem signature_rejection (buf : List Byte) :
    (¬ ([0x89, 0x50, 0x4E, 0x47, 0x0D, 0x0A, 0x1A, 0x0A] : List Byte) <+: buf →
      ParsePngFileData buf = .error .errNotPNGFormat) ∧
    (buf.length < 8 → ParsePngFileData buf = .error .errNotPNGFormat) ∧
    (CheckPngFileDataHeader buf = true ↔
      ([0x89, 0x50, 0x4E, 0x47, 0x0D, 0x0A, 0x1A, 0x0A] : List Byte) <+: buf) := by
  have hiff := checkHeader_iff buf
  have hrej : ¬ PngFileHeader <+: buf → ParsePngFileData buf = .error .errNotPNGFormat := by
    intro h
    have hfalse : CheckPngFileDataHeader buf = false := by
      cases hb : CheckPngFileDataHeader buf with
      | false => rfl
      | true => exact absurd (hiff.mp hb) h
    simp [ParsePngFileData, hfalse]
  refine ⟨hrej, ?_, hiff⟩
  intro hlen
  apply hrej
  intro hp
  have := hp.length_le
  simp only [PngFileHeader, List.length_cons, List.length_nil] at this
  omega

/-- C3, at a 7-byte buffer that is the signature without its last byte and at the bare
signature. -/
theorem signature_rejection_witness :
    ParsePngFileData [0x89, 0x50, 0x4E, 0x47, 0x0D, 0x0A, 0x1A] = .error .errNotPNGFormat ∧
    CheckPngFileDataHeader [0x89, 0x50, 0x4E, 0x47, 0x0D, 0x0A, 0x1A, 0x0A] = true :=
  ⟨(signature_rejection [0x89, 0x50, 0x4E, 0x47, 0x0D, 0x0A, 0x1A]).2.1 (by decide),
   (signature_rejection [0x89, 0x50, 0x4E, 0x47, 0x0D, 0x0A, 0x1A, 0x0A]).2.2.mpr
     (List.prefix_refl _)⟩

/-- C4, as stated, fails at `truncatedFile`: it begins with the signature, its only chunk
declares 5 payload bytes where 2 are left, and `ParsePngFileData` ends in the run-time panic
of an out-of-range slice, which is not an error value returned to the caller. -/
theorem truncated_not_error_counterexample :
    PngFileHeader <+: truncatedFile ∧
    Truncated (truncatedFile.drop 8) ∧
    ParsePngFileData truncatedFile = .error .panicSlice ∧
    Failure.isReturnedError .panicSlice = false :=
  ⟨List.prefix_append _ _, Truncated.here _ 5 rfl (by decide), rfl, rfl⟩

/-- C4 (amended): on a buffer that begins with the signature and in which some chunk declares
a length whose payload or checksum would end past the end of the buffer, `ParsePngFileData`
returns neither an image nor an error value: it stops in the out-of-range slice panic. -/
theorem parse_truncated_panics (buf : List Byte) (hsig : PngFileHeader <+: buf)
    (htr : Truncated (buf.drop 8)) :
    ParsePngFileData buf = .error .panicSlice ∧ Failure.isPanic .panicSlice = true := by
  obtain ⟨data, rfl⟩ := hsig
  have hdrop : (PngFileHeader ++ data).drop 8 = data := List.drop_left PngFileHeader data
  rw [hdrop] at htr
  exact ⟨parse_of_loop_error data _ (parseLoop_truncated data htr _ [] (Nat.lt_succ_self _)), rfl⟩

/-- C4 (amended), at `truncatedSecondChunkFile`, whose second chunk is the truncated one. -/
theorem parse_truncated_panics_witness :
    (PngFileHeader <+: truncatedSecondChunkFile ∧ Truncated (truncatedSecondChunkFile.drop 8)) ∧
    ParsePngFileData truncatedSecondChunkFile = .error .panicSlice ∧
    Failure.isPanic .panicSlice = true :=
  have hsig : PngFileHeader <+: truncatedSecondChunkFile :=
    ⟨[0, 0, 0, 0, 0x49, 0x45, 0x4E, 0x44, 174, 66, 96, 130] ++
      [0, 0, 0, 5, 0x49, 0x44, 0x41, 0x54], by simp [truncatedSecondChunkFile]⟩
  have htr : Truncated (truncatedSecondChunkFile.drop 8) :=
    Truncated.later _ 0 rfl (by decide) (Truncated.here _ 5 rfl (by decide))
  ⟨⟨hsig, htr⟩, parse_truncated_panics truncatedSecondChunkFile hsig htr⟩

end iospng

namespace iospng

/-! ## The reorder loops -/

theorem goIndex_ok_iff (d : List Byte) (i : Nat) (b : Byte) :
    goIndex d i = .ok b ↔ d[i]? = some b := by
  unfold goIndex
  cases h : d[i]? <;> simp

theorem goIndex_of_lt (d : List Byte) (i : Nat) (h : i < d.length) :
    ∃ b, goIndex d i = .ok b ∧ d[i]? = some b := by
  refine ⟨d[i], ?_, List.getElem?_eq_getElem h⟩
  rw [goIndex_ok_iff]
  exact List.getElem?_eq_getElem h

theorem reorderPixels_length (d : List Byte) :
    ∀ (n : Nat) (acc o : List Byte), reorderPixels d n acc = .ok o →
      o.length = acc.length + 4 * n := by
  intro n
  induction n with
  | zero =>
    intro acc o h
    simp only [reorderPixels, Except.ok.injEq] at h
    subst h
    rfl
  | succ n ih =>
    intro acc o h
    rw [reorderPixels] at h
    simp only [Nat.add_zero] at h
    cases h2 : goIndex d (acc.length + 2) with
    | error e => simp [h2] at h
    | ok c2 =>
      cases h1 : goIndex d (acc.length + 1) with
      | error e => simp [h2, h1] at h
      | ok c1 =>
        cases h0 : goIndex d acc.length with
        | error e => simp [h2, h1, h0] at h
        | ok c0 =>
          cases h3 : goIndex d (acc.length + 3) with
          | error e => simp [h2, h1, h0, h3] at h
          | ok c3 =>
            simp only [h2, h1, h0, h3] at h
            have := ih _ _ h
            simp only [List.length_append, List.length_cons, List.length_nil] at this
            omega

theorem reorderRows_length (d : List Byte) (w : Nat) :
    ∀ (n : Nat) (acc o : List Byte), reorderRows d w n acc = .ok o →
      o.length = acc.length + n * (1 + 4 * w) := by
  intro n
  induction n with
  | zero =>
    intro acc o h
    simp only [reorderRows, Except.ok.injEq] at h
    subst h
    simp
  | succ n ih =>
    intro acc o h
    rw [reorderRows] at h
    cases hf : goIndex d acc.length with
    | error e => simp [hf] at h
    | ok f =>
      cases hrow : reorderPixels d w (acc ++ [f]) with
      | error e => simp [hf, hrow] at h
      | ok row =>
        simp only [hf, hrow] at h
        have h1 := reorderPixels_length d w _ _ hrow
        have h2 := ih _ _ h
        simp only [List.length_append, List.length_cons, List.length_nil] at h1
        have hk : (n + 1) * (1 + 4 * w) = n * (1 + 4 * w) + (1 + 4 * w) := Nat.succ_mul _ _
        omega

theorem reorderPixels_spec (d : List Byte) :
    ∀ (n : Nat) (acc : List Byte), acc.length + 4 * n ≤ d.length →
      ∃ o, reorderPixels d n acc = .ok o ∧
        (∀ i, i < acc.length → o[i]? = acc[i]?) ∧
        ∀ x, x < n → ∀ p, p = acc.length + 4 * x →
          o[p]? = d[p + 2]? ∧ o[p + 1]? = d[p + 1]? ∧ o[p + 2]? = d[p]? ∧
            o[p + 3]? = d[p + 3]? := by
  intro n
  induction n with
  | zero =>
    intro acc _
    exact ⟨acc, rfl, fun _ _ => rfl, fun x hx => absurd hx (Nat.not_lt_zero x)⟩
  | succ n ih =>
    intro acc hlen
    obtain ⟨c2, g2, e2⟩ := goIndex_of_lt d (acc.length + 2) (by omega)
    obtain ⟨c1, g1, e1⟩ := goIndex_of_lt d (acc.length + 1) (by omega)
    obtain ⟨c0, g0, e0⟩ := goIndex_of_lt d (acc.length + 0) (by omega)
    obtain ⟨c3, g3, e3⟩ := goIndex_of_lt d (acc.length + 3) (by omega)
    have hacc : acc ++ [c2] ++ [c1] ++ [c0] ++ [c3] = acc ++ [c2, c1, c0, c3] := by simp
    have hl : (acc ++ [c2, c1, c0, c3]).length = acc.length + 4 := by simp
    obtain ⟨o, ho, hpre, hpix⟩ := ih (acc ++ [c2, c1, c0, c3]) (by omega)
    refine ⟨o, ?_, ?_, ?_⟩
    · rw [reorderPixels]
      simp only [g2, g1, g0, g3, hacc]
      exact ho
    · intro i hi
      rw [hpre i (by omega), List.getElem?_append_left hi]
    · intro x hx p hp
      cases x with
      | zero =>
        have hp0 : p = acc.length := by omega
        subst hp0
        have q0 : o[acc.length]? = some c2 := by
          rw [hpre _ (by omega), List.getElem?_append_right (Nat.le_refl _)]
          simp
        have q1 : o[acc.length + 1]? = some c1 := by
          rw [hpre _ (by omega), List.getElem?_append_right (by omega)]
          simp
        have q2 : o[acc.length + 2]? = some c0 := by
          rw [hpre _ (by omega), List.getElem?_append_right (by omega)]
          simp
        have q3 : o[acc.length + 3]? = some c3 := by
          rw [hpre _ (by omega), List.getElem?_append_right (by omega)]
          simp
        rw [Nat.add_zero] at e0
        exact ⟨q0.trans e2.symm, q1.trans e1.symm, q2.trans e0.symm, q3.trans e3.symm⟩
      | succ x => exact hpix x (by omega) p (by omega)

theorem reorderRows_spec (d : List Byte) (w : Nat) :
    ∀ (n : Nat) (acc : List Byte), acc.length + n * (1 + 4 * w) ≤ d.length →
      ∃ o, reorderRows d w n acc = .ok o ∧
        (∀ i, i < acc.length → o[i]? = acc[i]?) ∧
        ∀ y, y < n → ∀ s, s = acc.length + y * (1 + 4 * w) →
          o[s]? = d[s]? ∧
          ∀ x, x < w → ∀ p, p = s + 1 + 4 * x →
            o[p]? = d[p + 2]? ∧ o[p + 1]? = d[p + 1]? ∧ o[p + 2]? = d[p]? ∧
              o[p + 3]? = d[p + 3]? := by
  intro n
  induction n with
  | zero =>
    intro acc _
    exact ⟨acc, rfl, fun _ _ => rfl, fun y hy => absurd hy (Nat.not_lt_zero y)⟩
  | succ n ih =>
    intro acc hlen
    have hk : (n + 1) * (1 + 4 * w) = n * (1 + 4 * w) + (1 + 4 * w) := Nat.succ_mul _ _
    obtain ⟨f, gf, ef⟩ := goIndex_of_lt d acc.length (by omega)
    have hl : (acc ++ [f]).length = acc.length + 1 := by simp
    obtain ⟨row, hrow, hrpre, hrpix⟩ := reorderPixels_spec d w (acc ++ [f]) (by omega)
    have hrl := reorderPixels_length d w _ _ hrow
    rw [hl] at hrl
    obtain ⟨o, ho, hpre, hrows⟩ := ih row (by omega)
    refine ⟨o, ?_, ?_, ?_⟩
    · rw [reorderRows]
      simp only [gf, hrow]
      exact ho
    · intro i hi
      rw [hpre i (by omega), hrpre i (by omega), List.getElem?_append_left hi]
    · intro y hy s hs
      cases y with
      | zero =>
        have hs0 : s = acc.length := by omega
        subst hs0
        refine ⟨?_, ?_⟩
        · rw [hpre _ (by omega), hrpre _ (by omega),
            List.getElem?_append_right (Nat.le_refl _), ef]
          simp
        · intro x hx p hp
          obtain ⟨a0, a1, a2, a3⟩ := hrpix x hx p (by omega)
          rw [hpre p (by omega), hpre (p + 1) (by omega), hpre (p + 2) (by omega),
            hpre (p + 3) (by omega)]
          exact ⟨a0, a1, a2, a3⟩
      | succ y =>
        refine hrows y (by omega) s ?_
        have hy1 : (y + 1) * (1 + 4 * w) = y * (1 + 4 * w) + (1 + 4 * w) := Nat.succ_mul _ _
        omega

end iospng

namespace iospng

/-! ## The loop of the normalizer -/

theorem copy_eq (c : ImageChunk) : c.Copy = c := by
  simp [ImageChunk.Copy]

theorem hasType_iff (c : ImageChunk) (tag : List Byte) :
    c.hasType tag = true ↔ c.header.GetChunkType = tag := by
  simp [ImageChunk.hasType]

theorem hasType_false_iff (c : ImageChunk) (tag : List Byte) :
    c.hasType tag = false ↔ c.header.GetChunkType ≠ tag := by
  simp [ImageChunk.hasType]

theorem rebuiltIDAT_type (comp : List Byte) :
    (rebuiltIDAT comp).header.GetChunkType = tagIDAT := rfl

theorem normalizeLoop_acc (codec : Codec) (sz : Option ImageSize) (chunks : List ImageChunk) :
    ∀ (acc : List ImageChunk) (idat : List Byte),
      normalizeLoop codec sz chunks acc idat
        = (normalizeLoop codec sz chunks [] idat).map (fun o => acc ++ o) := by
  induction chunks with
  | nil => intro acc idat; simp [normalizeLoop, Except.map]
  | cons c cs ih =>
    intro acc idat
    have hmm : ∀ (x : ImageChunk) (i : List Byte),
        normalizeLoop codec sz cs (acc ++ [x]) i
          = (normalizeLoop codec sz cs ([] ++ [x]) i).map (fun o => acc ++ o) := by
      intro x i
      rw [ih (acc ++ [x]) i, ih ([] ++ [x]) i]
      cases normalizeLoop codec sz cs [] i <;> simp [Except.map]
    rw [normalizeLoop, normalizeLoop]
    split
    · exact ih _ _
    · split
      · exact ih _ _
      · split
        · cases codec.flateInflate idat with
          | none => rfl
          | some d =>
            cases sz with
            | none => rfl
            | some size =>
              simp only
              cases reorder size d with
              | error e => rfl
              | ok raster =>
                simp only
                cases codec.zlibCompress raster with
                | none => rfl
                | some comp => exact hmm _ _
        · exact hmm _ _

theorem normalizeLoop_append (codec : Codec) (sz : Option ImageSize) (xs ys : List ImageChunk) :
    ∀ (acc : List ImageChunk) (idat : List Byte),
      normalizeLoop codec sz (xs ++ ys) acc idat
        = match normalizeLoop codec sz xs acc idat with
          | .error e => .error e
          | .ok acc2 => normalizeLoop codec sz ys acc2 (idat ++ collectIDAT xs) := by
  induction xs with
  | nil => intro acc idat; simp [normalizeLoop, collectIDAT]
  | cons c cs ih =>
    intro acc idat
    rw [List.cons_append, normalizeLoop, normalizeLoop]
    by_cases h1 : c.Copy.header.GetChunkType = tagIDAT
    · have hc : c.hasType tagIDAT = true := by
        rw [hasType_iff]; simpa [copy_eq] using h1
      simp only [h1, if_true, collectIDAT, hc]
      rw [ih]
      simp [copy_eq, List.append_assoc]
    · have hc : c.hasType tagIDAT = false := by
        rw [hasType_false_iff]; simpa [copy_eq] using h1
      simp only [h1, if_false, collectIDAT, hc, Bool.false_eq_true]
      split
      · exact ih _ _
      · split
        · cases codec.flateInflate idat with
          | none => rfl
          | some d =>
            cases sz with
            | none => rfl
            | some size =>
              simp only
              cases reorder size d with
              | error e => rfl
              | ok raster =>
                simp only
                cases codec.zlibCompress raster with
                | none => rfl
                | some comp => exact ih _ _
        · exact ih _ _

theorem normalizeLoop_emits (codec : Codec) (sz : Option ImageSize) (chunks : List ImageChunk) :
    ∀ (acc : List ImageChunk) (idat : List Byte) (out : List ImageChunk),
      normalizeLoop codec sz chunks acc idat = .ok out →
      ∃ emitted, out = acc ++ emitted ∧
        List.Forall₂ (Emitted codec sz)
          (chunks.filter (fun c => !c.hasType tagIDAT && !c.hasType tagCgBI)) emitted := by
  induction chunks with
  | nil =>
    intro acc idat out h
    simp only [normalizeLoop, Except.ok.injEq] at h
    exact ⟨[], by simp [h], by simp⟩
  | cons c cs ih =>
    intro acc idat out h
    rw [normalizeLoop] at h
    simp only [copy_eq] at h
    by_cases h1 : c.header.GetChunkType = tagIDAT
    · have hc : c.hasType tagIDAT = true := (hasType_iff _ _).mpr h1
      simp only [h1, if_true] at h
      obtain ⟨em, ho, hf⟩ := ih _ _ _ h
      exact ⟨em, ho, by simpa [List.filter_cons, hc] using hf⟩
    · have hc : c.hasType tagIDAT = false := (hasType_false_iff _ _).mpr h1
      simp only [h1, if_false] at h
      by_cases h2 : c.header.GetChunkType = tagCgBI
      · have hc2 : c.hasType tagCgBI = true := (hasType_iff _ _).mpr h2
        simp only [h2, if_true] at h
        obtain ⟨em, ho, hf⟩ := ih _ _ _ h
        exact ⟨em, ho, by simpa [List.filter_cons, hc, hc2] using hf⟩
      · have hc2 : c.hasType tagCgBI = false := (hasType_false_iff _ _).mpr h2
        simp only [h2, if_false] at h
        by_cases h3 : c.header.GetChunkType = tagIEND
        · have hc3 : c.hasType tagIEND = true := (hasType_iff _ _).mpr h3
          simp only [h3, if_true] at h
          cases hinf : codec.flateInflate idat with
          | none => simp [hinf] at h
          | some d =>
            cases sz with
            | none => simp [hinf] at h
            | some size =>
              cases hre : reorder size d with
              | error e => simp [hinf, hre] at h
              | ok raster =>
                cases hz : codec.zlibCompress raster with
                | none => simp [hinf, hre, hz] at h
                | some comp =>
                  simp only [hinf, hre, hz] at h
                  obtain ⟨em, ho, hf⟩ := ih _ _ _ h
                  refine ⟨rebuiltIDAT comp :: em, by simp [ho], ?_⟩
                  simp only [List.filter_cons, hc, hc2, Bool.not_false, Bool.and_self, if_true]
                  exact List.Forall₂.cons
                    ⟨hc, hc2, Or.inl ⟨hc3, size, d, raster, comp, rfl, hre, hz, rfl⟩⟩ hf
        · have hc3 : c.hasType tagIEND = false := (hasType_false_iff _ _).mpr h3
          simp only [h3, if_false] at h
          obtain ⟨em, ho, hf⟩ := ih _ _ _ h
          refine ⟨c :: em, by simp [ho], ?_⟩
          simp only [List.filter_cons, hc, hc2, Bool.not_false, Bool.and_self, if_true]
          exact List.Forall₂.cons ⟨hc, hc2, Or.inr ⟨hc3, rfl⟩⟩ hf

theorem normalize_emits (codec : Codec) (img out : PNGImage)
    (h : img.Normalize codec = .ok out) :
    List.Forall₂ (Emitted codec img.getImageSize)
      (img.imageChunks.filter (fun c => !c.hasType tagIDAT && !c.hasType tagCgBI))
      out.imageChunks := by
  unfold PNGImage.Normalize at h
  cases hl : normalizeLoop codec img.getImageSize img.imageChunks [] [] with
  | error e => simp [hl] at h
  | ok chunks =>
    simp only [hl, Except.ok.injEq] at h
    obtain ⟨em, ho, hf⟩ := normalizeLoop_emits codec _ _ _ _ _ hl
    subst h
    simpa [ho] using hf

theorem forall₂_mem_right {R : ImageChunk → ImageChunk → Prop} {l1 l2 : List ImageChunk}
    (h : List.Forall₂ R l1 l2) : ∀ y ∈ l2, ∃ x ∈ l1, R x y := by
  induction h with
  | nil => intro y hy; simp at hy
  | cons hxy _ ih =>
    intro y hy
    rcases List.mem_cons.mp hy with rfl | hy
    · exact ⟨_, List.mem_cons_self _ _, hxy⟩
    · obtain ⟨x, hx, hr⟩ := ih y hy
      exact ⟨x, List.mem_cons_of_mem _ hx, hr⟩

end iospng

namespace iospng

/-! ## What a successful `Normalize` emits -/

theorem tag_facts :
    tagIEND ≠ tagIDAT ∧ tagIEND ≠ tagCgBI ∧ tagIDAT ≠ tagCgBI := by decide

theorem emitted_type (codec : Codec) (sz : Option ImageSize) (cin cout : ImageChunk)
    (h : Emitted codec sz cin cout) :
    cout.hasType tagCgBI = false ∧ cout.hasType tagIEND = false ∧
      cout.hasType tagIDAT = cin.hasType tagIEND := by
  obtain ⟨h1, h2, h3 | h3⟩ := h
  · obtain ⟨hi, size, d, raster, comp, -, -, -, rfl⟩ := h3
    rw [hi]
    refine ⟨?_, ?_, ?_⟩
    · rw [hasType_false_iff, rebuiltIDAT_type]; exact tag_facts.2.2
    · rw [hasType_false_iff, rebuiltIDAT_type]; exact fun e => tag_facts.1 e.symm
    · rw [hasType_iff, rebuiltIDAT_type]
  · obtain ⟨hi, rfl⟩ := h3
    exact ⟨h2, hi, by rw [h1, hi]⟩

theorem emitted_counts (codec : Codec) (sz : Option ImageSize) {l1 l2 : List ImageChunk}
    (h : List.Forall₂ (Emitted codec sz) l1 l2) :
    l2.countP (fun c => c.hasType tagIDAT) = l1.countP (fun c => c.hasType tagIEND) := by
  induction h with
  | nil => rfl
  | cons hxy _ ih =>
    have ht := (emitted_type codec sz _ _ hxy).2.2
    simp only [List.countP_cons, ih, ht]

theorem emitted_passthrough (codec : Codec) (sz : Option ImageSize) {l1 l2 : List ImageChunk}
    (h : List.Forall₂ (Emitted codec sz) l1 l2) :
    l2.filter (fun c => !c.hasType tagIDAT) = l1.filter (fun c => !c.hasType tagIEND) := by
  induction h with
  | nil => rfl
  | cons hxy _ ih =>
    have ht := (emitted_type codec sz _ _ hxy).2.2
    obtain ⟨-, -, h3 | h3⟩ := hxy
    · simp [List.filter_cons, ih, ht, h3.1]
    · obtain ⟨hi, rfl⟩ := h3
      simp [List.filter_cons, ih, ht, hi]

theorem kept_iend_count (chunks : List ImageChunk) :
    (chunks.filter (fun c => !c.hasType tagIDAT && !c.hasType tagCgBI)).countP
        (fun c => c.hasType tagIEND)
      = chunks.countP (fun c => c.hasType tagIEND) := by
  induction chunks with
  | nil => rfl
  | cons c cs ih =>
    by_cases h : c.hasType tagIEND = true
    · have e := (hasType_iff _ _).mp h
      have h1 : c.hasType tagIDAT = false := by
        rw [hasType_false_iff, e]; exact tag_facts.1
      have h2 : c.hasType tagCgBI = false := by
        rw [hasType_false_iff, e]; exact tag_facts.2.1
      simp [List.filter_cons, h, h1, h2, ih]
    · have h0 : c.hasType tagIEND = false := by simpa using h
      by_cases hk : (!c.hasType tagIDAT && !c.hasType tagCgBI) = true
      · simp [List.filter_cons, hk, h0, ih]
      · simp [List.filter_cons, hk, h0, ih]

theorem kept_not_iend (chunks : List ImageChunk) :
    (chunks.filter (fun c => !c.hasType tagIDAT && !c.hasType tagCgBI)).filter
        (fun c => !c.hasType tagIEND)
      = chunks.filter
          (fun c => !c.hasType tagCgBI && !c.hasType tagIDAT && !c.hasType tagIEND) := by
  rw [List.filter_filter]
  congr 1
  funext c
  cases c.hasType tagCgBI <;> cases c.hasType tagIDAT <;> cases c.hasType tagIEND <;> rfl

set_option maxRecDepth 100000 in
theorem sampleImage_normalize : sampleImage.Normalize sampleCodec = .ok sampleNormalized := rfl

theorem ihdrOnly_normalize (codec : Codec) :
    ihdrOnlyImage.Normalize codec
      = .ok { imageSize := ⟨0, 0⟩, imageChunks := ihdrOnlyImage.imageChunks } := rfl

/-! ## The normalizer: the claims -/

/-- C5, as stated, fails on an image without `IEND`: the file `ihdrOnlyFile` parses to the
image `ihdrOnlyImage`, on which `Normalize` succeeds with every codec, and the output has no
chunk of type `IDAT` at all. -/
theorem normalize_one_idat_counterexample :
    ParsePngFileData ihdrOnlyFile = .ok ihdrOnlyImage ∧
    ∀ codec : Codec, ∃ out, ihdrOnlyImage.Normalize codec = .ok out ∧
      out.imageChunks.countP (fun c => c.hasType tagIDAT) = 0 :=
  ⟨rfl, fun codec => ⟨_, ihdrOnly_normalize codec, rfl⟩⟩

/-- C5 (amended): when `Normalize` succeeds, the output has no chunk of type `CgBI`, and it
has exactly as many chunks of type `IDAT` as the input has chunks of type `IEND` (one when
the input has one `IEND`), however many `IDAT` chunks the input has. -/
theorem normalize_idat_count (codec : Codec) (img out : PNGImage)
    (h : img.Normalize codec = .ok out) :
    (∀ c ∈ out.imageChunks, c.header.GetChunkType ≠ tagCgBI) ∧
    out.imageChunks.countP (fun c => c.hasType tagIDAT)
      = img.imageChunks.countP (fun c => c.hasType tagIEND) := by
  have hf := normalize_emits codec img out h
  refine ⟨?_, ?_⟩
  · intro c hc
    obtain ⟨x, -, hx⟩ := forall₂_mem_right hf c hc
    exact (hasType_false_iff _ _).mp (emitted_type codec _ _ _ hx).1
  · rw [emitted_counts codec _ hf, kept_iend_count]

/-- C5 (amended), at `sampleImage` (one `IDAT`, one `IEND`) with `sampleCodec`. -/
theorem normalize_idat_count_witness :
    sampleImage.Normalize sampleCodec = .ok sampleNormalized ∧
    (∀ c ∈ sampleNormalized.imageChunks, c.header.GetChunkType ≠ tagCgBI) ∧
    sampleNormalized.imageChunks.countP (fun c => c.hasType tagIDAT)
      = sampleImage.imageChunks.countP (fun c => c.hasType tagIEND) :=
  ⟨sampleImage_normalize,
   normalize_idat_count sampleCodec sampleImage sampleNormalized sampleImage_normalize⟩

/-- C6, as stated, fails at `sampleImage`, which ends in an `IEND` chunk: `Normalize` succeeds
on it with `sampleCodec`, and with whatever codec it succeeds, no chunk of the output has type
`IEND`: the copy of the `IEND` chunk is itself rewritten into the new `IDAT` chunk (length,
type, payload and checksum are overwritten before it is appended). -/
theorem normalize_keeps_iend_counterexample :
    (∃ c ∈ sampleImage.imageChunks, c.header.GetChunkType = tagIEND) ∧
    sampleImage.Normalize sampleCodec = .ok sampleNormalized ∧
    ∀ (codec : Codec) (out : PNGImage), sampleImage.Normalize codec = .ok out →
      ∀ c ∈ out.imageChunks, c.header.GetChunkType ≠ tagIEND := by
  refine ⟨⟨_, List.mem_cons_of_mem _ (List.mem_cons_of_mem _ (List.mem_cons_self _ _)), rfl⟩,
    sampleImage_normalize, ?_⟩
  intro codec out h c hc
  obtain ⟨x, -, hx⟩ := forall₂_mem_right (normalize_emits codec _ _ h) c hc
  exact (hasType_false_iff _ _).mp (emitted_type codec _ _ _ hx).2.1

/-- C6 (amended): when `Normalize` succeeds on an image whose chunk sequence is
`pre ++ iend :: post` with `iend` of type `IEND`, the output has no chunk of type `IEND`, and the
new `IDAT` chunk stands where the `IEND` chunk stood: the output is the output of the loop on
`pre`, then the rebuilt `IDAT` chunk whose payload is the compressed reorder of the inflated
`IDAT` payloads of `pre`, then the output of the loop on `post`. -/
theorem normalize_replaces_iend (codec : Codec) (size0 : ImageSize)
    (pre post : List ImageChunk) (iend : ImageChunk) (out : PNGImage)
    (htype : iend.header.GetChunkType = tagIEND)
    (h : PNGImage.Normalize codec ⟨size0, pre ++ iend :: post⟩ = .ok out) :
    (∀ c ∈ out.imageChunks, c.header.GetChunkType ≠ tagIEND) ∧
    ∃ outPre outPost size d raster comp,
      normalizeLoop codec (PNGImage.getImageSize ⟨size0, pre ++ iend :: post⟩) pre [] []
        = .ok outPre ∧
      normalizeLoop codec (PNGImage.getImageSize ⟨size0, pre ++ iend :: post⟩) post []
        (collectIDAT pre) = .ok outPost ∧
      PNGImage.getImageSize ⟨size0, pre ++ iend :: post⟩ = some size ∧
      codec.flateInflate (collectIDAT pre) = some d ∧
      reorder size d = .ok raster ∧
      codec.zlibCompress raster = some comp ∧
      out.imageChunks = outPre ++ rebuiltIDAT comp :: outPost := by
  refine ⟨?_, ?_⟩
  · intro c hc
    obtain ⟨x, -, hx⟩ := forall₂_mem_right (normalize_emits codec _ _ h) c hc
    exact (hasType_false_iff _ _).mp (emitted_type codec _ _ _ hx).2.1
  · unfold PNGImage.Normalize at h
    generalize PNGImage.getImageSize ⟨size0, pre ++ iend :: post⟩ = sz at h ⊢
    simp only [] at h
    rw [normalizeLoop_append] at h
    cases hpre : normalizeLoop codec sz pre [] [] with
    | error e => simp [hpre] at h
    | ok outPre =>
      simp only [hpre, List.nil_append] at h
      rw [normalizeLoop] at h
      have n1 : ¬ tagIEND = tagIDAT := tag_facts.1
      have n2 : ¬ tagIEND = tagCgBI := tag_facts.2.1
      simp only [copy_eq, htype, n1, n2, if_false, if_true] at h
      cases hinf : codec.flateInflate (collectIDAT pre) with
      | none => simp [hinf] at h
      | some d =>
        cases sz with
        | none => simp [hinf] at h
        | some size =>
          cases hre : reorder size d with
          | error e => simp [hinf, hre] at h
          | ok raster =>
            cases hz : codec.zlibCompress raster with
            | none => simp [hinf, hre, hz] at h
            | some comp =>
              simp only [hinf, hre, hz] at h
              rw [normalizeLoop_acc] at h
              cases hpost : normalizeLoop codec (some size) post [] (collectIDAT pre) with
              | error e => simp [hpost, Except.map] at h
              | ok outPost =>
                simp only [hpost, Except.map, Except.ok.injEq] at h
                refine ⟨outPre, outPost, size, d, raster, comp, rfl, rfl, rfl, rfl, hre, hz, ?_⟩
                rw [← h]
                simp

end iospng

namespace iospng

/-- C6 (amended), at `sampleImage` with `sampleCodec`: the chunks before `IEND` are `IHDR` and
`IDAT`, none follows. -/
theorem normalize_replaces_iend_witness :
    (sampleIEND.header.GetChunkType = tagIEND ∧
      PNGImage.Normalize sampleCodec ⟨⟨1, 1⟩, [sampleIHDR, sampleIDAT] ++ sampleIEND :: []⟩
        = .ok sampleNormalized) ∧
    (∀ c ∈ sampleNormalized.imageChunks, c.header.GetChunkType ≠ tagIEND) ∧
    ∃ outPre outPost size d raster comp,
      normalizeLoop sampleCodec
          (PNGImage.getImageSize ⟨⟨1, 1⟩, [sampleIHDR, sampleIDAT] ++ sampleIEND :: []⟩)
          [sampleIHDR, sampleIDAT] [] [] = .ok outPre ∧
      normalizeLoop sampleCodec
          (PNGImage.getImageSize ⟨⟨1, 1⟩, [sampleIHDR, sampleIDAT] ++ sampleIEND :: []⟩)
          [] [] (collectIDAT [sampleIHDR, sampleIDAT]) = .ok outPost ∧
      PNGImage.getImageSize ⟨⟨1, 1⟩, [sampleIHDR, sampleIDAT] ++ sampleIEND :: []⟩ = some size ∧
      sampleCodec.flateInflate (collectIDAT [sampleIHDR, sampleIDAT]) = some d ∧
      reorder size d = .ok raster ∧
      sampleCodec.zlibCompress raster = some comp ∧
      sampleNormalized.imageChunks = outPre ++ rebuiltIDAT comp :: outPost :=
  ⟨⟨rfl, sampleImage_normalize⟩,
   normalize_replaces_iend sampleCodec ⟨1, 1⟩ [sampleIHDR, sampleIDAT] [] sampleIEND
     sampleNormalized rfl sampleImage_normalize⟩

/-- C7: when `Normalize` succeeds, the output chunks whose type is not `IDAT` are, chunk for
chunk and in the same order, the input chunks whose type is none of `CgBI`, `IDAT`, `IEND`
(equal chunks have the same type tag, length field, payload and checksum). -/
theorem normalize_passthrough (codec : Codec) (img out : PNGImage)
    (h : img.Normalize codec = .ok out) :
    out.imageChunks.filter (fun c => !c.hasType tagIDAT)
      = img.imageChunks.filter
          (fun c => !c.hasType tagCgBI && !c.hasType tagIDAT && !c.hasType tagIEND) := by
  rw [emitted_passthrough codec _ (normalize_emits codec img out h), kept_not_iend]

/-- C7, at `sampleImage` with `sampleCodec`: only the `IHDR` chunk passes through. -/
theorem normalize_passthrough_witness :
    sampleImage.Normalize sampleCodec = .ok sampleNormalized ∧
    sampleNormalized.imageChunks.filter (fun c => !c.hasType tagIDAT)
      = sampleImage.imageChunks.filter
          (fun c => !c.hasType tagCgBI && !c.hasType tagIDAT && !c.hasType tagIEND) :=
  ⟨sampleImage_normalize,
   normalize_passthrough sampleCodec sampleImage sampleNormalized sampleImage_normalize⟩

/-- C8: for a width `w`, a height `h` and an inflated raster `d` of at least `h * (1 + 4 * w)`
bytes, the reorder loop returns a buffer `o` of `h * (1 + 4 * w)` bytes in which, for every
scanline `y < h` starting at `s = y * (1 + 4 * w)`, `o[s] = d[s]`, and for every pixel `x < w`
at `p = s + 1 + 4 * x`, `o[p] = d[p+2]`, `o[p+1] = d[p+1]`, `o[p+2] = d[p]`, `o[p+3] = d[p+3]`;
and on `w = h = 1`, `d = [0x00, 0x10, 0x20, 0x30, 0xFF]` it returns
`[0x00, 0x30, 0x20, 0x10, 0xFF]`. -/
theorem reorder_channels :
    (∀ (w h : Nat) (d : List Byte), h * (1 + 4 * w) ≤ d.length →
      ∃ o, reorder ⟨w, h⟩ d = .ok o ∧ o.length = h * (1 + 4 * w) ∧
        ∀ y, y < h → ∀ s, s = y * (1 + 4 * w) →
          o[s]? = d[s]? ∧
          ∀ x, x < w → ∀ p, p = s + 1 + 4 * x →
            o[p]? = d[p + 2]? ∧ o[p + 1]? = d[p + 1]? ∧ o[p + 2]? = d[p]? ∧
              o[p + 3]? = d[p + 3]?) ∧
    reorder ⟨1, 1⟩ [0x00, 0x10, 0x20, 0x30, 0xFF] = .ok [0x00, 0x30, 0x20, 0x10, 0xFF] := by
  refine ⟨?_, rfl⟩
  intro w h d hlen
  obtain ⟨o, ho, -, hrows⟩ := reorderRows_spec d w h [] (by simpa using hlen)
  have hl := reorderRows_length d w h [] o ho
  refine ⟨o, ?_, by simpa using hl, ?_⟩
  · simpa [reorder] using ho
  · intro y hy s hs
    exact hrows y hy s (by simpa using hs)

/-- C8, at a 2 x 2 raster of 18 bytes: second scanline, second pixel. -/
theorem reorder_channels_witness :
    2 * (1 + 4 * 2) ≤
      ([1, 10, 11, 12, 13, 20, 21, 22, 23, 2, 30, 31, 32, 33, 40, 41, 42, 43] :
        List Byte).length ∧
    ∃ o, reorder ⟨(2 : Nat), (2 : Nat)⟩
        [1, 10, 11, 12, 13, 20, 21, 22, 23, 2, 30, 31, 32, 33, 40, 41, 42, 43] = .ok o ∧
      o.length = 2 * (1 + 4 * 2) ∧
      ∀ y, y < 2 → ∀ s, s = y * (1 + 4 * 2) →
        o[s]? = ([1, 10, 11, 12, 13, 20, 21, 22, 23, 2, 30, 31, 32, 33, 40, 41, 42, 43] :
          List Byte)[s]? ∧
        ∀ x, x < 2 → ∀ p, p = s + 1 + 4 * x →
          o[p]? = ([1, 10, 11, 12, 13, 20, 21, 22, 23, 2, 30, 31, 32, 33, 40, 41, 42, 43] :
            List Byte)[p + 2]? ∧
          o[p + 1]? = ([1, 10, 11, 12, 13, 20, 21, 22, 23, 2, 30, 31, 32, 33, 40, 41, 42, 43] :
            List Byte)[p + 1]? ∧
          o[p + 2]? = ([1, 10, 11, 12, 13, 20, 21, 22, 23, 2, 30, 31, 32, 33, 40, 41, 42, 43] :
            List Byte)[p]? ∧
          o[p + 3]? = ([1, 10, 11, 12, 13, 20, 21, 22, 23, 2, 30, 31, 32, 33, 40, 41, 42, 43] :
            List Byte)[p + 3]? :=
  ⟨by decide, reorder_channels.1 2 2 _ (by decide)⟩

/-! ## The checksum of the rebuilt chunk -/

theorem crc32_not32_not32 (x : Nat) : crc32.not32 (crc32.not32 x) = x := by
  unfold crc32.not32
  rw [Nat.xor_assoc, Nat.xor_self, Nat.xor_zero]

theorem crc32_update_append (crc : Nat) (a b : List Byte) :
    crc32.Update (crc32.Update crc a) b = crc32.Update crc (a ++ b) := by
  unfold crc32.Update
  rw [crc32_not32_not32, List.foldl_append]

set_option maxRecDepth 100000 in
theorem crc32_checksum_IEND : crc32.Checksum tagIEND = 0xAE426082 := by decide

/-- C9: when `Normalize` succeeds, every output chunk of type `IDAT` has as checksum the
CRC-32 of the bytes `IDAT` followed by its payload, and the two-step computation
`crc32.Update(crc32.Checksum(type), payload)` gives that one-shot value. -/
theorem normalize_idat_crc (codec : Codec) (img out : PNGImage)
    (h : img.Normalize codec = .ok out) :
    ∀ c ∈ out.imageChunks, c.header.GetChunkType = tagIDAT →
      c.crc = crc32.Checksum (tagIDAT ++ c.data) ∧
      crc32.Update (crc32.Checksum tagIDAT) c.data = crc32.Checksum (tagIDAT ++ c.data) := by
  intro c hc ht
  have htwo : crc32.Update (crc32.Checksum tagIDAT) c.data
      = crc32.Checksum (tagIDAT ++ c.data) := crc32_update_append 0 tagIDAT c.data
  refine ⟨?_, htwo⟩
  obtain ⟨x, -, hx⟩ := forall₂_mem_right (normalize_emits codec _ _ h) c hc
  obtain ⟨h1, -, h3 | h3⟩ := hx
  · obtain ⟨-, size, d, raster, comp, -, -, -, rfl⟩ := h3
    exact crc32_update_append 0 tagIDAT comp
  · obtain ⟨-, rfl⟩ := h3
    exact absurd ht ((hasType_false_iff _ _).mp h1)

set_option maxRecDepth 100000 in
/-- C9, at `sampleImage` with `sampleCodec`: the rebuilt chunk has checksum `3811187284`. -/
theorem normalize_idat_crc_witness :
    sampleImage.Normalize sampleCodec = .ok sampleNormalized ∧
    (3811187284 = crc32.Checksum (tagIDAT ++ [0x00, 0x30, 0x20, 0x10, 0xFF]) ∧
      crc32.Update (crc32.Checksum tagIDAT) [0x00, 0x30, 0x20, 0x10, 0xFF]
        = crc32.Checksum (tagIDAT ++ [0x00, 0x30, 0x20, 0x10, 0xFF])) :=
  ⟨sampleImage_normalize,
   normalize_idat_crc sampleCodec sampleImage sampleNormalized sampleImage_normalize
     ⟨⟨5, ⟨0x49, 0x44, 0x41, 0x54⟩⟩, [0x00, 0x30, 0x20, 0x10, 0xFF], 3811187284⟩
     (List.mem_cons_of_mem _ (List.mem_cons_self _ _)) rfl⟩

/-! ## The length of the reordered raster -/

theorem reorder_length (size : ImageSize) (d o : List Byte) (h : reorder size d = .ok o) :
    o.length = size.Height.toNat * (1 + 4 * size.Width.toNat) := by
  have := reorderRows_length d size.Width.toNat size.Height.toNat [] o h
  simpa using this

/-- C10: when `Normalize` succeeds on an image whose `IHDR` declares a width `w ≥ 0` and a
height `h ≥ 0`, the payload of every output chunk of type `IDAT` is the zlib compression of a
raster of exactly `h * (1 + 4 * w)` bytes, whatever the length of the inflated input; hence
any inflate that inverts the compressor returns, on that payload, a buffer of that length. -/
theorem normalize_raster_length (codec : Codec) (img out : PNGImage) (size : ImageSize)
    (hsize : img.getImageSize = some size) (hw : 0 ≤ size.Width) (hh : 0 ≤ size.Height)
    (h : img.Normalize codec = .ok out) :
    ∀ c ∈ out.imageChunks, c.header.GetChunkType = tagIDAT →
      ∃ raster, codec.zlibCompress raster = some c.data ∧
        (raster.length : Int) = size.Height * (1 + 4 * size.Width) ∧
        ∀ zlibInflate : List Byte → Option (List Byte),
          (∀ x y, codec.zlibCompress x = some y → zlibInflate y = some x) →
          ∃ r, zlibInflate c.data = some r ∧
            (r.length : Int) = size.Height * (1 + 4 * size.Width) := by
  intro c hc ht
  obtain ⟨x, -, hx⟩ := forall₂_mem_right (normalize_emits codec _ _ h) c hc
  obtain ⟨h1, -, h3 | h3⟩ := hx
  · obtain ⟨-, size2, d, raster, comp, hs, hre, hz, rfl⟩ := h3
    rw [hsize, Option.some.injEq] at hs
    subst hs
    have hlen := reorder_length size d raster hre
    have hcast : (raster.length : Int) = size.Height * (1 + 4 * size.Width) := by
      rw [hlen]
      push_cast
      rw [Int.toNat_of_nonneg hw, Int.toNat_of_nonneg hh]
    exact ⟨raster, hz, hcast, fun inv hinv => ⟨raster, hinv raster _ hz, hcast⟩⟩
  · obtain ⟨-, rfl⟩ := h3
    exact absurd ht ((hasType_false_iff _ _).mp h1)

/-- C10, at `sampleImage` (1 x 1 pixel) with `sampleCodec`: the raster has 5 bytes. -/
theorem normalize_raster_length_witness :
    (sampleImage.getImageSize = some ⟨1, 1⟩ ∧ (0 : Int) ≤ 1 ∧
      sampleImage.Normalize sampleCodec = .ok sampleNormalized) ∧
    ∀ c ∈ sampleNormalized.imageChunks, c.header.GetChunkType = tagIDAT →
      ∃ raster, sampleCodec.zlibCompress raster = some c.data ∧
        (raster.length : Int) = 1 * (1 + 4 * 1) ∧
        ∀ zlibInflate : List Byte → Option (List Byte),
          (∀ x y, sampleCodec.zlibCompress x = some y → zlibInflate y = some x) →
          ∃ r, zlibInflate c.data = some r ∧ (r.length : Int) = 1 * (1 + 4 * 1) :=
  ⟨⟨rfl, by decide, sampleImage_normalize⟩,
   normalize_raster_length sampleCodec sampleImage sampleNormalized ⟨1, 1⟩ rfl (by decide)
     (by decide) sampleImage_normalize⟩

end iospng

namespace iospng

/-! ## One iteration of the loop of the normalizer -/

theorem normalizeLoop_idat (codec : Codec) (sz : Option ImageSize) (c : ImageChunk)
    (rest acc : List ImageChunk) (idat : List Byte) (h : c.header.GetChunkType = tagIDAT) :
    normalizeLoop codec sz (c :: rest) acc idat
      = normalizeLoop codec sz rest acc (idat ++ c.data) := by
  rw [normalizeLoop]
  simp [copy_eq, h]

theorem normalizeLoop_cgbi (codec : Codec) (sz : Option ImageSize) (c : ImageChunk)
    (rest acc : List ImageChunk) (idat : List Byte) (h : c.header.GetChunkType = tagCgBI) :
    normalizeLoop codec sz (c :: rest) acc idat = normalizeLoop codec sz rest acc idat := by
  have n1 : ¬ tagCgBI = tagIDAT := fun e => tag_facts.2.2 e.symm
  rw [normalizeLoop]
  simp [copy_eq, h, n1]

theorem normalizeLoop_other (codec : Codec) (sz : Option ImageSize) (c : ImageChunk)
    (rest acc : List ImageChunk) (idat : List Byte) (h1 : c.header.GetChunkType ≠ tagIDAT)
    (h2 : c.header.GetChunkType ≠ tagCgBI) (h3 : c.header.GetChunkType ≠ tagIEND) :
    normalizeLoop codec sz (c :: rest) acc idat
      = normalizeLoop codec sz rest (acc ++ [c]) idat := by
  rw [normalizeLoop]
  simp [copy_eq, h1, h2, h3]

theorem normalizeLoop_iend (codec : Codec) (sz : Option ImageSize) (c : ImageChunk)
    (rest acc : List ImageChunk) (idat : List Byte) (h : c.header.GetChunkType = tagIEND) :
    normalizeLoop codec sz (c :: rest) acc idat
      = match codec.flateInflate idat with
        | none => .error .errFlate
        | some decompressedData =>
          match sz with
          | none => .error .panicNil
          | some size =>
            match reorder size decompressedData with
            | .error e => .error e
            | .ok newData =>
              match codec.zlibCompress newData with
              | none => .error .errZlib
              | some compressedData =>
                normalizeLoop codec sz rest (acc ++ [rebuiltIDAT compressedData]) idat := by
  have n1 : ¬ tagIEND = tagIDAT := tag_facts.1
  have n2 : ¬ tagIEND = tagCgBI := tag_facts.2.1
  rw [normalizeLoop]
  simp only [copy_eq, h, n1, n2, if_false, if_true]

theorem normalizeLoop_no_iend (codec : Codec) (sz : Option ImageSize)
    (chunks : List ImageChunk) (hno : ∀ c ∈ chunks, c.header.GetChunkType ≠ tagIEND) :
    ∀ (acc : List ImageChunk) (idat : List Byte),
      normalizeLoop codec sz chunks acc idat
        = .ok (acc ++ chunks.filter (fun c => !c.hasType tagCgBI && !c.hasType tagIDAT)) := by
  induction chunks with
  | nil => intro acc idat; simp [normalizeLoop]
  | cons c cs ih =>
    intro acc idat
    have hc := hno c (List.mem_cons_self _ _)
    have ih2 := ih (fun x hx => hno x (List.mem_cons_of_mem _ hx))
    by_cases h1 : c.header.GetChunkType = tagIDAT
    · have t1 : c.hasType tagIDAT = true := (hasType_iff _ _).mpr h1
      rw [normalizeLoop_idat codec sz c cs acc idat h1, ih2]
      simp [List.filter_cons, t1]
    · have t1 : c.hasType tagIDAT = false := (hasType_false_iff _ _).mpr h1
      by_cases h2 : c.header.GetChunkType = tagCgBI
      · have t2 : c.hasType tagCgBI = true := (hasType_iff _ _).mpr h2
        rw [normalizeLoop_cgbi codec sz c cs acc idat h2, ih2]
        simp [List.filter_cons, t2]
      · have t2 : c.hasType tagCgBI = false := (hasType_false_iff _ _).mpr h2
        rw [normalizeLoop_other codec sz c cs acc idat h1 h2 hc, ih2]
        simp [List.filter_cons, t1, t2]

theorem getImageSize_none (size0 : ImageSize) (chunks : List ImageChunk)
    (hno : ∀ c ∈ chunks, c.header.GetChunkType ≠ tagIHDR) :
    PNGImage.getImageSize ⟨size0, chunks⟩ = none := by
  unfold PNGImage.getImageSize
  induction chunks with
  | nil => rfl
  | cons c cs ih =>
    have hc := hno c (List.mem_cons_self _ _)
    have ht : c.tryGetImageSize = none := by simp [ImageChunk.tryGetImageSize, hc]
    simp only [List.findSome?_cons, ht]
    exact ih (fun x hx => hno x (List.mem_cons_of_mem _ hx))

/-! ## Images without `IHDR` or without `IEND`: the claims -/

/-- C11, as stated, fails on an image without `IHDR` and without `IEND`: the file
`cgbiOnlyFile` parses to `cgbiOnlyImage`, no chunk of which is `IHDR`, and `Normalize` returns
an image and no error on it, with every codec. -/
theorem normalize_missing_header_counterexample :
    ParsePngFileData cgbiOnlyFile = .ok cgbiOnlyImage ∧
    (∀ c ∈ cgbiOnlyImage.imageChunks, c.header.GetChunkType ≠ tagIHDR) ∧
    ∀ codec : Codec, cgbiOnlyImage.Normalize codec
      = .ok { imageSize := ⟨0, 0⟩, imageChunks := [] } :=
  ⟨rfl, by decide, fun _ => rfl⟩

/-- C11 (amended): on an image without `IHDR` chunk whose chunk sequence is
`pre ++ iend :: post`, `iend` being its first `IEND` chunk, `Normalize` returns no image (no
partial output), and when the `IDAT` bytes collected before that `IEND` do not inflate, what
it returns is the inflate error. -/
theorem normalize_without_ihdr (codec : Codec) (size0 : ImageSize)
    (pre post : List ImageChunk) (iend : ImageChunk)
    (hno : ∀ c ∈ pre ++ iend :: post, c.header.GetChunkType ≠ tagIHDR)
    (htype : iend.header.GetChunkType = tagIEND)
    (hfirst : ∀ c ∈ pre, c.header.GetChunkType ≠ tagIEND) :
    (∃ e, PNGImage.Normalize codec ⟨size0, pre ++ iend :: post⟩ = .error e) ∧
    (codec.flateInflate (collectIDAT pre) = none →
      PNGImage.Normalize codec ⟨size0, pre ++ iend :: post⟩ = .error .errFlate) := by
  have hsz := getImageSize_none size0 _ hno
  have hloop : normalizeLoop codec none (pre ++ iend :: post) [] []
      = match codec.flateInflate (collectIDAT pre) with
        | none => .error .errFlate
        | some _ => .error .panicNil := by
    rw [normalizeLoop_append, normalizeLoop_no_iend codec none pre hfirst]
    simp only [List.nil_append]
    rw [normalizeLoop_iend codec none iend post _ _ htype]
  unfold PNGImage.Normalize
  rw [hsz]
  simp only [hloop]
  cases codec.flateInflate (collectIDAT pre) with
  | none => exact ⟨⟨_, rfl⟩, fun _ => rfl⟩
  | some d => exact ⟨⟨_, rfl⟩, fun h => by simp at h⟩

/-- C11 (amended), at the image `CgBI`, `IEND` with `sampleCodec`: nothing was collected, the
empty buffer does not inflate, and the inflate error comes back. -/
theorem normalize_without_ihdr_witness :
    ((∀ c ∈ [sampleCgBI] ++ sampleIEND :: [], c.header.GetChunkType ≠ tagIHDR) ∧
      sampleIEND.header.GetChunkType = tagIEND ∧
      (∀ c ∈ [sampleCgBI], c.header.GetChunkType ≠ tagIEND)) ∧
    (∃ e, PNGImage.Normalize sampleCodec ⟨⟨-1, -1⟩, [sampleCgBI] ++ sampleIEND :: []⟩
      = .error e) ∧
    (sampleCodec.flateInflate (collectIDAT [sampleCgBI]) = none →
      PNGImage.Normalize sampleCodec ⟨⟨-1, -1⟩, [sampleCgBI] ++ sampleIEND :: []⟩
        = .error .errFlate) :=
  have h1 : ∀ c ∈ [sampleCgBI] ++ sampleIEND :: [], c.header.GetChunkType ≠ tagIHDR := by
    decide
  have h3 : ∀ c ∈ [sampleCgBI], c.header.GetChunkType ≠ tagIEND := by decide
  ⟨⟨h1, rfl, h3⟩, normalize_without_ihdr sampleCodec ⟨-1, -1⟩ [sampleCgBI] [] sampleIEND h1 rfl h3⟩

/-- C20: on an image without `IEND` chunk, `Normalize` succeeds with every codec, whatever the
chunks are (with or without `IHDR`, whatever the `IDAT` payloads), and its output is exactly
the input chunks whose type is neither `CgBI` nor `IDAT`, in their order; no chunk of the
output has type `IDAT`. -/
theorem normalize_without_iend (codec : Codec) (img : PNGImage)
    (hno : ∀ c ∈ img.imageChunks, c.header.GetChunkType ≠ tagIEND) :
    img.Normalize codec
      = .ok { imageSize := ⟨0, 0⟩,
              imageChunks :=
                img.imageChunks.filter (fun c => !c.hasType tagCgBI && !c.hasType tagIDAT) } ∧
    ∀ c ∈ img.imageChunks.filter (fun c => !c.hasType tagCgBI && !c.hasType tagIDAT),
      c.header.GetChunkType ≠ tagIDAT := by
  refine ⟨?_, ?_⟩
  · unfold PNGImage.Normalize
    rw [normalizeLoop_no_iend codec _ _ hno]
    simp
  · intro c hc
    have := (List.mem_filter.mp hc).2
    simp only [Bool.and_eq_true, Bool.not_eq_true'] at this
    exact (hasType_false_iff _ _).mp this.2

/-- C20, at the image `CgBI`, `IDAT` (no `IHDR`, no `IEND`) with a codec whose inflate always
fails: the output is empty. -/
theorem normalize_without_iend_witness :
    (∀ c ∈ [sampleCgBI, sampleIDAT], c.header.GetChunkType ≠ tagIEND) ∧
    PNGImage.Normalize ⟨fun _ => none, fun _ => none⟩ ⟨⟨-1, -1⟩, [sampleCgBI, sampleIDAT]⟩
      = .ok { imageSize := ⟨0, 0⟩,
              imageChunks := [sampleCgBI, sampleIDAT].filter
                (fun c => !c.hasType tagCgBI && !c.hasType tagIDAT) } ∧
    ∀ c ∈ [sampleCgBI, sampleIDAT].filter (fun c => !c.hasType tagCgBI && !c.hasType tagIDAT),
      c.header.GetChunkType ≠ tagIDAT :=
  have h : ∀ c ∈ [sampleCgBI, sampleIDAT], c.header.GetChunkType ≠ tagIEND := by decide
  ⟨h, normalize_without_iend ⟨fun _ => none, fun _ => none⟩
    ⟨⟨-1, -1⟩, [sampleCgBI, sampleIDAT]⟩ h⟩

end iospng

namespace iospng

/-! ## The accumulator of the normalizer -/

theorem getImageSize_skip (size0 : ImageSize) (pre post : List ImageChunk)
    (hpre : ∀ x ∈ pre, x.header.GetChunkType ≠ tagIHDR) :
    PNGImage.getImageSize ⟨size0, pre ++ post⟩ = PNGImage.getImageSize ⟨size0, post⟩ := by
  unfold PNGImage.getImageSize
  induction pre with
  | nil => rfl
  | cons c cs ih =>
    have hc := hpre c (List.mem_cons_self _ _)
    have ht : c.tryGetImageSize = none := by simp [ImageChunk.tryGetImageSize, hc]
    simp only [List.cons_append, List.findSome?_cons, ht]
    exact ih (fun x hx => hpre x (List.mem_cons_of_mem _ hx))

theorem getImageSize_idat_split (size0 : ImageSize) (pre post : List ImageChunk)
    (c c1 c2 : ImageChunk) (hc : c.header.GetChunkType = tagIDAT)
    (hc1 : c1.header.GetChunkType = tagIDAT) (hc2 : c2.header.GetChunkType = tagIDAT) :
    PNGImage.getImageSize ⟨size0, pre ++ c :: post⟩
      = PNGImage.getImageSize ⟨size0, pre ++ c1 :: c2 :: post⟩ := by
  have n : ¬ tagIDAT = tagIHDR := by decide
  have t : c.tryGetImageSize = none := by simp [ImageChunk.tryGetImageSize, hc, n]
  have t1 : c1.tryGetImageSize = none := by simp [ImageChunk.tryGetImageSize, hc1, n]
  have t2 : c2.tryGetImageSize = none := by simp [ImageChunk.tryGetImageSize, hc2, n]
  unfold PNGImage.getImageSize
  induction pre with
  | nil => simp only [List.nil_append, List.findSome?_cons, t, t1, t2]
  | cons x xs ih =>
    simp only [List.cons_append, List.findSome?_cons]
    cases x.tryGetImageSize with
    | none => exact ih
    | some _ => rfl

/-- C15: at an `IEND` chunk that follows the chunks `pre`, the loop of `Normalize` hands to the
raw inflate exactly `collectIDAT pre`, the payloads of the `IDAT` chunks of `pre` in order (the
run on `pre ++ iend :: post` is the run on `pre` followed by the transcode of that buffer and
the run on `post`); and replacing an `IDAT` chunk of payload `p ++ q` by two consecutive `IDAT`
chunks of payloads `p` and `q`, whatever their length fields and checksums, leaves the result
of `Normalize` (failure or output image) unchanged. -/
theorem idat_accumulation (codec : Codec) (size0 : ImageSize) (pre post : List ImageChunk) :
    (∀ (sz : Option ImageSize) (iend : ImageChunk), iend.header.GetChunkType = tagIEND →
      normalizeLoop codec sz (pre ++ iend :: post) [] []
        = match normalizeLoop codec sz pre [] [] with
          | .error e => .error e
          | .ok outPre =>
            match codec.flateInflate (collectIDAT pre) with
            | none => .error .errFlate
            | some decompressedData =>
              match sz with
              | none => .error .panicNil
              | some size =>
                match reorder size decompressedData with
                | .error e => .error e
                | .ok newData =>
                  match codec.zlibCompress newData with
                  | none => .error .errZlib
                  | some compressedData =>
                    normalizeLoop codec sz post (outPre ++ [rebuiltIDAT compressedData])
                      (collectIDAT pre)) ∧
    (∀ (c c1 c2 : ImageChunk) (p q : List Byte),
      c.header.GetChunkType = tagIDAT → c.data = p ++ q →
      c1.header.GetChunkType = tagIDAT → c1.data = p →
      c2.header.GetChunkType = tagIDAT → c2.data = q →
      PNGImage.Normalize codec ⟨size0, pre ++ c :: post⟩
        = PNGImage.Normalize codec ⟨size0, pre ++ c1 :: c2 :: post⟩) := by
  refine ⟨?_, ?_⟩
  · intro sz iend htype
    rw [normalizeLoop_append]
    cases normalizeLoop codec sz pre [] [] with
    | error e => rfl
    | ok outPre =>
      simp only [List.nil_append]
      rw [normalizeLoop_iend codec sz iend post _ _ htype]
  · intro c c1 c2 p q hc hd hc1 hd1 hc2 hd2
    unfold PNGImage.Normalize
    rw [getImageSize_idat_split size0 pre post c c1 c2 hc hc1 hc2]
    simp only []
    rw [normalizeLoop_append, normalizeLoop_append codec _ pre (c1 :: c2 :: post)]
    cases normalizeLoop codec (PNGImage.getImageSize ⟨size0, pre ++ c1 :: c2 :: post⟩) pre [] []
      with
    | error e => rfl
    | ok outPre =>
      simp only []
      rw [normalizeLoop_idat codec _ c post _ _ hc, normalizeLoop_idat codec _ c1 _ _ _ hc1,
        normalizeLoop_idat codec _ c2 post _ _ hc2, hd, hd1, hd2]
      simp only [List.nil_append, List.append_assoc]

set_option maxRecDepth 100000 in
/-- C15, at `sampleImage` with `sampleCodec`: its `IDAT` chunk of 10 payload bytes split into
chunks of 4 and 6 bytes gives the same normalized image. -/
theorem idat_accumulation_witness :
    PNGImage.Normalize sampleCodec ⟨⟨1, 1⟩, [sampleIHDR] ++ sampleIDAT :: [sampleIEND]⟩
      = PNGImage.Normalize sampleCodec
          ⟨⟨1, 1⟩, [sampleIHDR] ++ sampleIDATFirst :: sampleIDATSecond :: [sampleIEND]⟩ ∧
    PNGImage.Normalize sampleCodec
        ⟨⟨1, 1⟩, [sampleIHDR] ++ sampleIDATFirst :: sampleIDATSecond :: [sampleIEND]⟩
      = .ok sampleNormalized :=
  ⟨(idat_accumulation sampleCodec ⟨1, 1⟩ [sampleIHDR] [sampleIEND]).2
      sampleIDAT sampleIDATFirst sampleIDATSecond [0x01, 0x05, 0x00, 0xFA]
      [0xFF, 0x00, 0x10, 0x20, 0x30, 0xFF] rfl rfl rfl rfl rfl rfl,
   rfl⟩

end iospng

namespace iospng

/-! ## The image size -/

theorem parse_imageSize (buf : List Byte) (img : PNGImage)
    (h : ParsePngFileData buf = .ok img) :
    img.imageSize = (match img.getImageSize with
      | some imgSize => imgSize
      | none => ⟨-1, -1⟩) := by
  unfold ParsePngFileData at h
  split at h
  · simp at h
  · simp only [] at h
    split at h
    · simp at h
    · rename_i pngChunks _
      split at h
      · rename_i imgSize hs
        simp only [Except.ok.injEq] at h
        subst h
        simp only [PNGImage.getImageSize] at hs ⊢
        rw [hs]
      · rename_i hs
        simp only [Except.ok.injEq] at h
        subst h
        simp only [PNGImage.getImageSize] at hs ⊢
        rw [hs]

theorem toInt32_eq (v : Nat) (hv : v < 2 ^ 32) :
    toInt32 v = if v < 2 ^ 31 then (v : Int) else (v : Int) - 2 ^ 32 := by
  unfold toInt32
  rw [Nat.mod_eq_of_lt hv]

/-- C14: when `ParsePngFileData` succeeds and the first `IHDR` chunk of the result has a
payload of at least 8 bytes, `GetImageSize` returns as width the signed 32-bit value of the
big-endian payload bytes 0..3 and as height that of the payload bytes 4..7 of that chunk (the
unsigned value `v` when `v < 2 ^ 31`, else `v - 2 ^ 32`). -/
theorem image_size_decoding (buf : List Byte) (img : PNGImage) (pre post : List ImageChunk)
    (c : ImageChunk) (w0 w1 w2 w3 h0 h1 h2 h3 : Byte) (rest : List Byte)
    (hparse : ParsePngFileData buf = .ok img)
    (hchunks : img.imageChunks = pre ++ c :: post)
    (hpre : ∀ x ∈ pre, x.header.GetChunkType ≠ tagIHDR)
    (hc : c.header.GetChunkType = tagIHDR)
    (hdata : c.data = w0 :: w1 :: w2 :: w3 :: h0 :: h1 :: h2 :: h3 :: rest) :
    img.GetImageSize.Width
      = (if beUint32 w0 w1 w2 w3 < 2 ^ 31 then (beUint32 w0 w1 w2 w3 : Int)
         else (beUint32 w0 w1 w2 w3 : Int) - 2 ^ 32) ∧
    img.GetImageSize.Height
      = (if beUint32 h0 h1 h2 h3 < 2 ^ 31 then (beUint32 h0 h1 h2 h3 : Int)
         else (beUint32 h0 h1 h2 h3 : Int) - 2 ^ 32) := by
  have hsize := parse_imageSize buf img hparse
  have hget : img.getImageSize
      = some ⟨toInt32 (beUint32 w0 w1 w2 w3), toInt32 (beUint32 h0 h1 h2 h3)⟩ := by
    obtain ⟨size0, chunks⟩ := img
    simp only at hchunks
    subst hchunks
    rw [getImageSize_skip size0 pre (c :: post) hpre]
    simp [PNGImage.getImageSize, ImageChunk.tryGetImageSize, hc, hdata]
  rw [hget] at hsize
  simp only [PNGImage.GetImageSize, hsize]
  exact ⟨toInt32_eq _ (beUint32_lt _ _ _ _), toInt32_eq _ (beUint32_lt _ _ _ _)⟩

/-- C14, at `signedSizeFile`: the `IHDR` chunk comes second and declares width `-2`
(`FF FF FF FE`) and height `258`. -/
theorem image_size_decoding_witness :
    (ParsePngFileData signedSizeFile = .ok signedSizeImage ∧
      signedSizeImage.GetImageSize = ⟨-2, 258⟩) ∧
    signedSizeImage.GetImageSize.Width
      = (if beUint32 0xFF 0xFF 0xFF 0xFE < 2 ^ 31 then (beUint32 0xFF 0xFF 0xFF 0xFE : Int)
         else (beUint32 0xFF 0xFF 0xFF 0xFE : Int) - 2 ^ 32) ∧
    signedSizeImage.GetImageSize.Height
      = (if beUint32 0 0 1 2 < 2 ^ 31 then (beUint32 0 0 1 2 : Int)
         else (beUint32 0 0 1 2 : Int) - 2 ^ 32) :=
  ⟨⟨rfl, rfl⟩,
   image_size_decoding signedSizeFile signedSizeImage
     [{ header := { ChunkLength := 1, ChunkType := ⟨0x74, 0x45, 0x58, 0x74⟩ },
        data := [0x41], crc := 7 }] []
     { header := { ChunkLength := 8, ChunkType := ⟨0x49, 0x48, 0x44, 0x52⟩ },
       data := [0xFF, 0xFF, 0xFF, 0xFE, 0, 0, 1, 2], crc := 9 }
     0xFF 0xFF 0xFF 0xFE 0 0 1 2 [] rfl rfl (by decide) rfl rfl⟩

/-! ## Defects of the reader and of the normalizer -/

/-- C16: on the buffer that is exactly the 8-byte signature the reader does not return an
empty image: the body of its loop runs before the end of the data is tested, `newPngChunk`
slices `data[8:8]` out of the empty slice, and the call ends in the out-of-range slice
panic. -/
theorem parse_bare_signature :
    PngFileHeader.length = 8 ∧
    CheckPngFileDataHeader PngFileHeader = true ∧
    newPngChunk [] = .error .panicSlice ∧
    ParsePngFileData PngFileHeader = .error .panicSlice ∧
    Failure.isPanic .panicSlice = true :=
  ⟨rfl, rfl, rfl, rfl, rfl⟩

theorem normalize_imageSize (codec : Codec) (img out : PNGImage)
    (h : img.Normalize codec = .ok out) : out.GetImageSize = ⟨0, 0⟩ := by
  unfold PNGImage.Normalize at h
  split at h
  · simp at h
  · simp only [Except.ok.injEq] at h
    subst h
    rfl

/-- C18: the file of `sampleImage` parses to `sampleImage`, whose `IHDR` chunk declares 1 x 1
and whose `GetImageSize` is 1 x 1; the image `Normalize` returns on it still has that `IHDR`
chunk as first chunk, with the size 1 x 1 in it, but its `GetImageSize` is 0 x 0: `Normalize`
assigns only `imageChunks` in the image it builds, so every image it returns has the zero
size. -/
theorem normalize_loses_image_size :
    ParsePngFileData sampleImage.SaveToData = .ok sampleImage ∧
    sampleImage.GetImageSize = ⟨1, 1⟩ ∧
    sampleImage.Normalize sampleCodec = .ok sampleNormalized ∧
    sampleNormalized.imageChunks.head? = some sampleIHDR ∧
    sampleIHDR.tryGetImageSize = some ⟨1, 1⟩ ∧
    sampleNormalized.getImageSize = some ⟨1, 1⟩ ∧
    sampleNormalized.GetImageSize = ⟨0, 0⟩ ∧
    ∀ (codec : Codec) (img out : PNGImage), img.Normalize codec = .ok out →
      out.GetImageSize = ⟨0, 0⟩ :=
  ⟨rfl, rfl, sampleImage_normalize, rfl, rfl, rfl, rfl, normalize_imageSize⟩

end iospng

namespace iospng

/-! ## The length field of the chunks a caller can hold -/

theorem readChunkHeader_lt (data : List Byte) : (readChunkHeader data).ChunkLength < 2 ^ 32 := by
  unfold readChunkHeader
  split
  · exact beUint32_lt _ _ _ _
  · decide

theorem goSlice_length (data : List Byte) (lo hi : Nat) (d : List Byte)
    (h : goSlice data lo hi = .ok d) : d.length = hi - lo := by
  unfold goSlice at h
  split at h
  · rename_i hc
    simp only [Except.ok.injEq] at h
    subst h
    simp only [List.length_take, List.length_drop]
    omega
  · simp at h

theorem newPngChunk_lengthField (data : List Byte) (c : ImageChunk)
    (h : newPngChunk data = .ok c) :
    c.header.ChunkLength = c.data.length ∧ c.data.length < 2 ^ 32 := by
  have hlt := readChunkHeader_lt data
  unfold newPngChunk at h
  simp only [] at h
  cases h1 : goSlice data 8 (8 + (readChunkHeader data).ChunkLength) with
  | error e => simp [h1] at h
  | ok chunkData =>
    cases h2 : goSlice data (8 + (readChunkHeader data).ChunkLength)
        (8 + (readChunkHeader data).ChunkLength + 4) with
    | error e => simp [h1, h2] at h
    | ok crcData =>
      simp only [h1, h2, Except.ok.injEq] at h
      subst h
      have hl := goSlice_length _ _ _ _ h1
      simp only []
      omega

theorem parseLoop_lengthField :
    ∀ (fuel : Nat) (data : List Byte) (acc out : List ImageChunk),
      parseLoop fuel data acc = .ok out →
      (∀ c ∈ acc, c.header.ChunkLength = c.data.length ∧ c.data.length < 2 ^ 32) →
      ∀ c ∈ out, c.header.ChunkLength = c.data.length ∧ c.data.length < 2 ^ 32 := by
  intro fuel
  induction fuel with
  | zero => intro data acc out h; simp [parseLoop] at h
  | succ f ih =>
    intro data acc out h hacc
    rw [parseLoop] at h
    cases h1 : newPngChunk data with
    | error e => simp [h1] at h
    | ok imgChunk =>
      have hnew := newPngChunk_lengthField data imgChunk h1
      have hacc2 : ∀ c ∈ acc ++ [imgChunk],
          c.header.ChunkLength = c.data.length ∧ c.data.length < 2 ^ 32 := by
        intro c hc
        rcases List.mem_append.mp hc with hc | hc
        · exact hacc c hc
        · rw [List.mem_singleton] at hc
          subst hc
          exact hnew
      cases h2 : goSliceFrom data imgChunk.GetFullChunkLength with
      | error e => simp [h1, h2] at h
      | ok rest =>
        simp only [h1, h2] at h
        split at h
        · simp only [Except.ok.injEq] at h
          subst h
          exact hacc2
        · exact ih _ _ _ h hacc2

theorem parse_lengthField (buf : List Byte) (img : PNGImage)
    (h : ParsePngFileData buf = .ok img) :
    ∀ c ∈ img.imageChunks, c.header.ChunkLength = c.data.length ∧ c.data.length < 2 ^ 32 := by
  unfold ParsePngFileData at h
  split at h
  · simp at h
  · simp only [] at h
    split at h
    · simp at h
    · rename_i pngChunks hl
      have key := parseLoop_lengthField _ _ _ _ hl (by simp)
      split at h <;>
        · simp only [Except.ok.injEq] at h
          subst h
          exact key

theorem normalize_lengthField (codec : Codec) (img out : PNGImage)
    (h : img.Normalize codec = .ok out)
    (hin : ∀ c ∈ img.imageChunks, c.header.ChunkLength = c.data.length % 2 ^ 32) :
    ∀ c ∈ out.imageChunks, c.header.ChunkLength = c.data.length % 2 ^ 32 := by
  intro c hc
  obtain ⟨x, hx, hr⟩ := forall₂_mem_right (normalize_emits codec _ _ h) c hc
  obtain ⟨-, -, h3 | h3⟩ := hr
  · obtain ⟨-, size, d, raster, comp, -, -, -, rfl⟩ := h3
    rfl
  · obtain ⟨-, rfl⟩ := h3
    exact hin c (List.mem_filter.mp hx).1

theorem reachable_lengthField (codec : Codec) (img : PNGImage) (h : Reachable codec img) :
    ∀ c ∈ img.imageChunks, c.header.ChunkLength = c.data.length % 2 ^ 32 := by
  induction h with
  | zero => intro c hc; simp at hc
  | parse buf img hp =>
    intro c hc
    obtain ⟨h1, h2⟩ := parse_lengthField buf img hp c hc
    rw [h1, Nat.mod_eq_of_lt h2]
  | normalize img out _ hn ih => exact normalize_lengthField codec img out hn ih

end iospng

namespace iospng

theorem sampleImage_parse : ParsePngFileData sampleImage.SaveToData = .ok sampleImage := rfl

theorem sampleNormalized_reachable : Reachable sampleCodec sampleNormalized :=
  Reachable.normalize sampleImage sampleNormalized
    (Reachable.parse _ _ sampleImage_parse) sampleImage_normalize

theorem reorder_of_rows (w h : Nat) (d o : List Byte) (ho : reorderRows d w h [] = .ok o) :
    reorder ⟨(w : Int), (h : Int)⟩ d = .ok o := by
  simpa [reorder] using ho

/-! ## Writer layout and encoded length: the claims -/

/-- C17 (amended): every chunk of an image returned by `ParsePngFileData` has its payload
length as length field, and `GetFullChunkLength() = 8 + len(payload) + 4 =
len(SaveFullChunkToData())`; every chunk of an image a caller can hold (returned by
`ParsePngFileData` or by `Normalize`) has as length field its payload length modulo `2 ^ 32`
and an encoding of `8 + len(payload) + 4` bytes, so that the same equalities hold for it when
its payload is shorter than `2 ^ 32` bytes. -/
theorem encoded_length :
    (∀ (buf : List Byte) (img : PNGImage), ParsePngFileData buf = .ok img →
      ∀ c ∈ img.imageChunks,
        c.header.ChunkLength = c.data.length ∧
        c.GetFullChunkLength = 8 + c.data.length + 4 ∧
        c.GetFullChunkLength = c.SaveFullChunkToData.length) ∧
    (∀ (codec : Codec) (img : PNGImage), Reachable codec img →
      ∀ c ∈ img.imageChunks,
        c.header.ChunkLength = c.data.length % 2 ^ 32 ∧
        c.SaveFullChunkToData.length = 8 + c.data.length + 4 ∧
        (c.data.length < 2 ^ 32 →
          c.header.ChunkLength = c.data.length ∧
          c.GetFullChunkLength = 8 + c.data.length + 4 ∧
          c.GetFullChunkLength = c.SaveFullChunkToData.length)) := by
  refine ⟨?_, ?_⟩
  · intro buf img hp c hc
    obtain ⟨h1, -⟩ := parse_lengthField buf img hp c hc
    refine ⟨h1, ?_, ?_⟩
    · simp only [ImageChunk.GetFullChunkLength, h1]
    · rw [length_save]
      simp only [ImageChunk.GetFullChunkLength, h1]
  · intro codec img hr c hc
    have h1 := reachable_lengthField codec img hr c hc
    refine ⟨h1, length_save c, ?_⟩
    intro hlt
    rw [Nat.mod_eq_of_lt hlt] at h1
    refine ⟨h1, ?_, ?_⟩
    · simp only [ImageChunk.GetFullChunkLength, h1]
    · rw [length_save]
      simp only [ImageChunk.GetFullChunkLength, h1]

/-- C17 (amended), at the rebuilt `IDAT` chunk of `sampleNormalized` (5 payload bytes). -/
theorem encoded_length_witness :
    Reachable sampleCodec sampleNormalized ∧
    ∀ c ∈ sampleNormalized.imageChunks,
      c.header.ChunkLength = c.data.length % 2 ^ 32 ∧
      c.SaveFullChunkToData.length = 8 + c.data.length + 4 ∧
      (c.data.length < 2 ^ 32 →
        c.header.ChunkLength = c.data.length ∧
        c.GetFullChunkLength = 8 + c.data.length + 4 ∧
        c.GetFullChunkLength = c.SaveFullChunkToData.length) :=
  ⟨sampleNormalized_reachable,
   encoded_length.2 sampleCodec sampleNormalized sampleNormalized_reachable⟩

end iospng

namespace iospng

/-! ## The reorder loops: bounds and double application -/

theorem goIndex_ok_lt (d : List Byte) (i : Nat) (b : Byte) (h : goIndex d i = .ok b) :
    i < d.length := by
  rw [goIndex_ok_iff] at h
  by_contra hlt
  rw [List.getElem?_eq_none (by omega)] at h
  simp at h

theorem reorderPixels_bound (d : List Byte) :
    ∀ (n : Nat) (acc o : List Byte), reorderPixels d n acc = .ok o → 0 < n →
      acc.length + 4 * n ≤ d.length := by
  intro n
  induction n with
  | zero => intro acc o _ hn; omega
  | succ n ih =>
    intro acc o h _
    rw [reorderPixels] at h
    simp only [Nat.add_zero] at h
    cases h2 : goIndex d (acc.length + 2) with
    | error e => simp [h2] at h
    | ok c2 =>
      cases h1 : goIndex d (acc.length + 1) with
      | error e => simp [h2, h1] at h
      | ok c1 =>
        cases h0 : goIndex d acc.length with
        | error e => simp [h2, h1, h0] at h
        | ok c0 =>
          cases h3 : goIndex d (acc.length + 3) with
          | error e => simp [h2, h1, h0, h3] at h
          | ok c3 =>
            simp only [h2, h1, h0, h3] at h
            have hlt := goIndex_ok_lt d _ _ h3
            cases n with
            | zero => omega
            | succ m =>
              have := ih _ _ h (Nat.succ_pos m)
              simp only [List.length_append, List.length_cons, List.length_nil] at this
              omega

theorem reorderRows_bound (d : List Byte) (w : Nat) :
    ∀ (n : Nat) (acc o : List Byte), reorderRows d w n acc = .ok o → 0 < n →
      acc.length + n * (1 + 4 * w) ≤ d.length := by
  intro n
  induction n with
  | zero => intro acc o _ hn; omega
  | succ n ih =>
    intro acc o h _
    rw [reorderRows] at h
    cases hf : goIndex d acc.length with
    | error e => simp [hf] at h
    | ok f =>
      cases hrow : reorderPixels d w (acc ++ [f]) with
      | error e => simp [hf, hrow] at h
      | ok row =>
        simp only [hf, hrow] at h
        have hlt := goIndex_ok_lt d _ _ hf
        have hrl := reorderPixels_length d w _ _ hrow
        simp only [List.length_append, List.length_cons, List.length_nil] at hrl
        have hk : (n + 1) * (1 + 4 * w) = n * (1 + 4 * w) + (1 + 4 * w) := Nat.succ_mul _ _
        have hrowb : acc.length + (1 + 4 * w) ≤ d.length := by
          cases w with
          | zero => omega
          | succ v =>
            have := reorderPixels_bound d (v + 1) _ _ hrow (Nat.succ_pos v)
            simp only [List.length_append, List.length_cons, List.length_nil] at this
            omega
        cases n with
        | zero => omega
        | succ m =>
          have := ih _ _ h (Nat.succ_pos m)
          omega

theorem reorder_ok_iff (size : ImageSize) (d : List Byte) :
    (∃ o, reorder size d = .ok o)
      ↔ size.Height.toNat * (1 + 4 * size.Width.toNat) ≤ d.length := by
  constructor
  · rintro ⟨o, ho⟩
    cases hn : size.Height.toNat with
    | zero => omega
    | succ m =>
      have hb := reorderRows_bound d size.Width.toNat size.Height.toNat [] o ho (by omega)
      rw [hn] at hb
      simpa using hb
  · intro hlen
    obtain ⟨o, ho, -, -⟩ := reorderRows_spec d size.Width.toNat size.Height.toNat []
      (by simpa using hlen)
    exact ⟨o, ho⟩

theorem reorder_error_index (size : ImageSize) (d : List Byte) (e : Failure)
    (h : reorder size d = .error e) : e = .panicIndex := by
  have hidx : ∀ (i : Nat) (e : Failure), goIndex d i = .error e → e = .panicIndex := by
    intro i e hi
    unfold goIndex at hi
    split at hi
    · simp at hi
    · simp only [Except.error.injEq] at hi
      exact hi.symm
  have hpix : ∀ (n : Nat) (acc : List Byte) (e : Failure),
      reorderPixels d n acc = .error e → e = .panicIndex := by
    intro n
    induction n with
    | zero => intro acc e h; simp [reorderPixels] at h
    | succ n ih =>
      intro acc e h
      rw [reorderPixels] at h
      simp only [Nat.add_zero] at h
      cases h2 : goIndex d (acc.length + 2) with
      | error e2 => simp only [h2, Except.error.injEq] at h; exact h ▸ hidx _ _ h2
      | ok c2 =>
        cases h1 : goIndex d (acc.length + 1) with
        | error e1 => simp only [h2, h1, Except.error.injEq] at h; exact h ▸ hidx _ _ h1
        | ok c1 =>
          cases h0 : goIndex d acc.length with
          | error e0 => simp only [h2, h1, h0, Except.error.injEq] at h; exact h ▸ hidx _ _ h0
          | ok c0 =>
            cases h3 : goIndex d (acc.length + 3) with
            | error e3 =>
              simp only [h2, h1, h0, h3, Except.error.injEq] at h; exact h ▸ hidx _ _ h3
            | ok c3 =>
              simp only [h2, h1, h0, h3] at h
              exact ih _ _ h
  have hrows : ∀ (n : Nat) (acc : List Byte) (e : Failure),
      reorderRows d size.Width.toNat n acc = .error e → e = .panicIndex := by
    intro n
    induction n with
    | zero => intro acc e h; simp [reorderRows] at h
    | succ n ih =>
      intro acc e h
      rw [reorderRows] at h
      cases hf : goIndex d acc.length with
      | error e1 => simp only [hf, Except.error.injEq] at h; exact h ▸ hidx _ _ hf
      | ok f =>
        cases hrow : reorderPixels d size.Width.toNat (acc ++ [f]) with
        | error e1 => simp only [hf, hrow, Except.error.injEq] at h; exact h ▸ hpix _ _ _ hrow
        | ok row =>
          simp only [hf, hrow] at h
          exact ih _ _ h
  exact hrows _ _ _ h

/-- C19: for a declared width `w` and height `h` (signed) and an inflated raster `d`, the
reorder loop runs without an out-of-range index (it returns, the only way it can fail being
the index panic) if and only if `len(d) ≥ max(h,0) * (1 + 4 * max(w,0))`; and then it returns
after having appended exactly `max(h,0) * (1 + 4 * max(w,0))` bytes. -/
theorem reorder_index_safety (size : ImageSize) (d : List Byte) :
    ((∃ o, reorder size d = .ok o)
      ↔ max size.Height 0 * (1 + 4 * max size.Width 0) ≤ (d.length : Int)) ∧
    (∀ e, reorder size d = .error e → e = .panicIndex) ∧
    (max size.Height 0 * (1 + 4 * max size.Width 0) ≤ (d.length : Int) →
      ∃ o, reorder size d = .ok o ∧
        (o.length : Int) = max size.Height 0 * (1 + 4 * max size.Width 0)) := by
  have hcast : max size.Height 0 * (1 + 4 * max size.Width 0)
      = ((size.Height.toNat * (1 + 4 * size.Width.toNat) : Nat) : Int) := by
    push_cast
    rw [Int.toNat_eq_max, Int.toNat_eq_max]
  have hiff : (∃ o, reorder size d = .ok o)
      ↔ max size.Height 0 * (1 + 4 * max size.Width 0) ≤ (d.length : Int) := by
    rw [hcast, Int.ofNat_le]
    exact reorder_ok_iff size d
  refine ⟨hiff, reorder_error_index size d, ?_⟩
  intro hlen
  obtain ⟨o, ho⟩ := hiff.mpr hlen
  refine ⟨o, ho, ?_⟩
  rw [hcast, reorder_length size d o ho]

/-- C19, at width 1, height 1 and the raster of 5 bytes. -/
theorem reorder_index_safety_witness :
    max (1 : Int) 0 * (1 + 4 * max (1 : Int) 0)
      ≤ (([0x00, 0x10, 0x20, 0x30, 0xFF] : List Byte).length : Int) ∧
    ∃ o, reorder ⟨1, 1⟩ [0x00, 0x10, 0x20, 0x30, 0xFF] = .ok o ∧
      (o.length : Int) = max (1 : Int) 0 * (1 + 4 * max (1 : Int) 0) :=
  ⟨by decide,
   (reorder_index_safety ⟨1, 1⟩ [0x00, 0x10, 0x20, 0x30, 0xFF]).2.2 (by decide)⟩

end iospng

namespace iospng

theorem swap_twice (w h : Nat) (d o o2 : List Byte)
    (hdl : d.length = h * (1 + 4 * w)) (ho2l : o2.length = h * (1 + 4 * w))
    (h1 : ∀ y, y < h → ∀ s, s = y * (1 + 4 * w) →
      o[s]? = d[s]? ∧
      ∀ x, x < w → ∀ p, p = s + 1 + 4 * x →
        o[p]? = d[p + 2]? ∧ o[p + 1]? = d[p + 1]? ∧ o[p + 2]? = d[p]? ∧ o[p + 3]? = d[p + 3]?)
    (h2 : ∀ y, y < h → ∀ s, s = y * (1 + 4 * w) →
      o2[s]? = o[s]? ∧
      ∀ x, x < w → ∀ p, p = s + 1 + 4 * x →
        o2[p]? = o[p + 2]? ∧ o2[p + 1]? = o[p + 1]? ∧ o2[p + 2]? = o[p]? ∧
          o2[p + 3]? = o[p + 3]?) :
    o2 = d := by
  apply List.ext_getElem?
  intro i
  by_cases hi : i < h * (1 + 4 * w)
  · have hkpos : 0 < 1 + 4 * w := by omega
    have hdm : (1 + 4 * w) * (i / (1 + 4 * w)) + i % (1 + 4 * w) = i := Nat.div_add_mod _ _
    have hr : i % (1 + 4 * w) < 1 + 4 * w := Nat.mod_lt _ hkpos
    have hy : i / (1 + 4 * w) < h := (Nat.div_lt_iff_lt_mul hkpos).mpr hi
    rw [Nat.mul_comm] at hdm
    generalize i / (1 + 4 * w) = y at hdm hy
    generalize i % (1 + 4 * w) = r at hdm hr
    obtain ⟨a1, b1⟩ := h1 y hy _ rfl
    obtain ⟨a2, b2⟩ := h2 y hy _ rfl
    by_cases hr0 : r = 0
    · have e : i = y * (1 + 4 * w) := by omega
      rw [e, a2, a1]
    · have hx : (r - 1) / 4 < w := by omega
      obtain ⟨p0, p1, p2, p3⟩ := b1 ((r - 1) / 4) hx _ rfl
      obtain ⟨q0, q1, q2, q3⟩ := b2 ((r - 1) / 4) hx _ rfl
      have hj : (r - 1) % 4 < 4 := Nat.mod_lt _ (by decide)
      have hdm2 : 4 * ((r - 1) / 4) + (r - 1) % 4 = r - 1 := Nat.div_add_mod _ _
      generalize (r - 1) / 4 = x at hdm2 hx p0 p1 p2 p3 q0 q1 q2 q3
      generalize (r - 1) % 4 = j at hdm2 hj
      have hj4 : j = 0 ∨ j = 1 ∨ j = 2 ∨ j = 3 := by omega
      rcases hj4 with rfl | rfl | rfl | rfl
      · have e : i = y * (1 + 4 * w) + 1 + 4 * x := by omega
        rw [e, q0, p2]
      · have e : i = y * (1 + 4 * w) + 1 + 4 * x + 1 := by omega
        rw [e, q1, p1]
      · have e : i = y * (1 + 4 * w) + 1 + 4 * x + 2 := by omega
        rw [e, q2, p0]
      · have e : i = y * (1 + 4 * w) + 1 + 4 * x + 3 := by omega
        rw [e, q3, p3]
  · rw [List.getElem?_eq_none (by omega), List.getElem?_eq_none (by omega)]

theorem reorder_spec_of_ok (w h : Nat) (d o : List Byte) (hlen : h * (1 + 4 * w) ≤ d.length)
    (ho : reorder ⟨(w : Int), (h : Int)⟩ d = .ok o) :
    o.length = h * (1 + 4 * w) ∧
    ∀ y, y < h → ∀ s, s = y * (1 + 4 * w) →
      o[s]? = d[s]? ∧
      ∀ x, x < w → ∀ p, p = s + 1 + 4 * x →
        o[p]? = d[p + 2]? ∧ o[p + 1]? = d[p + 1]? ∧ o[p + 2]? = d[p]? ∧
          o[p + 3]? = d[p + 3]? := by
  obtain ⟨o1, ho1, -, hrows⟩ := reorderRows_spec d w h [] (by simpa using hlen)
  have hre := reorder_of_rows w h d o1 ho1
  rw [ho, Except.ok.injEq] at hre
  subst hre
  have hl := reorderRows_length d w h [] o ho1
  refine ⟨by simpa using hl, ?_⟩
  intro y hy s hs
  exact hrows y hy s (by simpa using hs)

theorem reorder_twice (w h : Nat) (d o o2 : List Byte) (hdl : d.length = h * (1 + 4 * w))
    (ho : reorder ⟨(w : Int), (h : Int)⟩ d = .ok o)
    (ho2 : reorder ⟨(w : Int), (h : Int)⟩ o = .ok o2) : o2 = d := by
  obtain ⟨hol, h1⟩ := reorder_spec_of_ok w h d o (by omega) ho
  obtain ⟨ho2l, h2⟩ := reorder_spec_of_ok w h o o2 (by omega) ho2
  exact swap_twice w h d o o2 hdl ho2l h1 h2

/-- C13, as stated, fails: there is no width `w`, height `h` and raster `d` of exactly
`h * (1 + 4 * w)` bytes on which two runs of the reorder loop give a raster different from
`d`. -/
theorem reorder_not_involution_counterexample :
    ¬ ∃ (w h : Nat) (d o o2 : List Byte), d.length = h * (1 + 4 * w) ∧
        reorder ⟨(w : Int), (h : Int)⟩ d = .ok o ∧
        reorder ⟨(w : Int), (h : Int)⟩ o = .ok o2 ∧ o2 ≠ d := by
  rintro ⟨w, h, d, o, o2, hdl, ho, ho2, hne⟩
  exact hne (reorder_twice w h d o o2 hdl ho ho2)

/-- C13 (amended): on the rasters of exact length the reorder is an involution: for every
width `w`, height `h` and raster `d` of exactly `h * (1 + 4 * w)` bytes, the reorder loop
returns a raster `o` on `d`, and run on `o` it returns `d`. -/
theorem reorder_involutive (w h : Nat) (d : List Byte) (hdl : d.length = h * (1 + 4 * w)) :
    ∃ o, reorder ⟨(w : Int), (h : Int)⟩ d = .ok o ∧
      reorder ⟨(w : Int), (h : Int)⟩ o = .ok d := by
  obtain ⟨o, ho⟩ := (reorder_ok_iff ⟨(w : Int), (h : Int)⟩ d).mpr (by simp [hdl])
  obtain ⟨hol, -⟩ := reorder_spec_of_ok w h d o (by omega) ho
  obtain ⟨o2, ho2⟩ := (reorder_ok_iff ⟨(w : Int), (h : Int)⟩ o).mpr (by simp [hol])
  have := reorder_twice w h d o o2 hdl ho ho2
  subst this
  exact ⟨o, ho, ho2⟩

/-- C13 (amended), at the 1 x 1 raster `[0x00, 0x10, 0x20, 0x30, 0xFF]`. -/
theorem reorder_involutive_witness :
    ([0x00, 0x10, 0x20, 0x30, 0xFF] : List Byte).length = 1 * (1 + 4 * 1) ∧
    ∃ o, reorder ⟨((1 : Nat) : Int), ((1 : Nat) : Int)⟩ [0x00, 0x10, 0x20, 0x30, 0xFF] = .ok o ∧
      reorder ⟨((1 : Nat) : Int), ((1 : Nat) : Int)⟩ o = .ok [0x00, 0x10, 0x20, 0x30, 0xFF] :=
  ⟨rfl, reorder_involutive 1 1 [0x00, 0x10, 0x20, 0x30, 0xFF] rfl⟩

end iospng

namespace iospng

/-! ## A rebuilt chunk of `2 ^ 32` bytes or more -/

theorem list_eq_of_getD (l1 l2 : List Byte) (M : Nat) (hlen : l1.length = l2.length)
    (hM : l1.length < M) (h : ∀ i : Fin M, l1.getD i 0 = l2.getD i 0) : l1 = l2 := by
  apply List.ext_getElem hlen
  intro n h1 h2
  have := h ⟨n, by omega⟩
  rw [List.getD_eq_getElem _ _ h1, List.getD_eq_getElem _ _ h2] at this
  exact this

theorem exists_long_image (M K : Nat) (hMK : M < 256 ^ K) (f : List Byte → List Byte)
    (hinj : ∀ a b, f a = f b → a = b) :
    ∃ r : List Byte, r.length = M + K ∧ M ≤ (f r).length := by
  by_contra hcon
  have hshort : ∀ r : List Byte, r.length = M + K → (f r).length < M := by
    intro r hr
    by_contra hge
    exact hcon ⟨r, hr, by omega⟩
  let g : (Fin (M + K) → Byte) → (Fin M → Byte) × Fin M := fun v =>
    (fun i => (f (List.ofFn v)).getD i 0,
     ⟨(f (List.ofFn v)).length, hshort _ (List.length_ofFn v)⟩)
  have hg : Function.Injective g := by
    intro v1 v2 hv
    have h1 : (fun i : Fin M => (f (List.ofFn v1)).getD i 0)
        = (fun i : Fin M => (f (List.ofFn v2)).getD i 0) := congrArg Prod.fst hv
    have h2 : (f (List.ofFn v1)).length = (f (List.ofFn v2)).length :=
      congrArg (fun p => p.2.val) hv
    have hf : f (List.ofFn v1) = f (List.ofFn v2) :=
      list_eq_of_getD _ _ M h2 (hshort _ (List.length_ofFn v1)) (fun i => congrFun h1 i)
    exact List.ofFn_injective (hinj _ _ hf)
  have hcard := Fintype.card_le_of_injective g hg
  simp only [Fintype.card_fun, Fintype.card_prod, Fintype.card_fin] at hcard
  rw [Nat.pow_add] at hcard
  have hpos : 0 < 256 ^ M := pow_pos (by decide) M
  have : 256 ^ M * M < 256 ^ M * 256 ^ K := Nat.mul_lt_mul_of_pos_left hMK hpos
  omega

theorem reorder_preimage (w h : Nat) (r : List Byte) (hlen : r.length = h * (1 + 4 * w)) :
    ∃ o, reorder ⟨(w : Int), (h : Int)⟩ o = .ok r := by
  obtain ⟨o, ho⟩ := (reorder_ok_iff ⟨(w : Int), (h : Int)⟩ r).mpr (by simp [hlen])
  obtain ⟨hol, -⟩ := reorder_spec_of_ok w h r o (by omega) ho
  obtain ⟨o2, ho2⟩ := (reorder_ok_iff ⟨(w : Int), (h : Int)⟩ o).mpr (by simp [hol])
  have := reorder_twice w h r o o2 hlen ho ho2
  subst this
  exact ⟨o, ho2⟩

theorem collectIDAT_idatByte (x : List Byte) : collectIDAT (x.map idatByte) = x := by
  induction x with
  | nil => rfl
  | cons b bs ih =>
    have ht : (idatByte b).hasType tagIDAT = true := rfl
    simp only [List.map_cons, collectIDAT, ht, if_true, ih]
    rfl

theorem normalize_ihdr_idats_iend (codec : Codec) (size0 size : ImageSize)
    (ihdr iend : ImageChunk) (idats : List ImageChunk) (d raster comp : List Byte)
    (hsz : PNGImage.getImageSize ⟨size0, ihdr :: (idats ++ [iend])⟩ = some size)
    (h1 : ihdr.header.GetChunkType ≠ tagIDAT) (h2 : ihdr.header.GetChunkType ≠ tagCgBI)
    (h3 : ihdr.header.GetChunkType ≠ tagIEND)
    (h4 : ∀ c ∈ idats, c.header.GetChunkType = tagIDAT)
    (h5 : iend.header.GetChunkType = tagIEND)
    (hinf : codec.flateInflate (collectIDAT idats) = some d)
    (hre : reorder size d = .ok raster) (hz : codec.zlibCompress raster = some comp) :
    PNGImage.Normalize codec ⟨size0, ihdr :: (idats ++ [iend])⟩
      = .ok { imageSize := ⟨0, 0⟩, imageChunks := [ihdr, rebuiltIDAT comp] } := by
  have hno : ∀ c ∈ idats, c.header.GetChunkType ≠ tagIEND := by
    intro c hc e
    rw [h4 c hc] at e
    exact tag_facts.1 e.symm
  have hfil : idats.filter (fun c => !c.hasType tagCgBI && !c.hasType tagIDAT) = [] := by
    rw [List.filter_eq_nil_iff]
    intro a ha
    have : a.hasType tagIDAT = true := (hasType_iff _ _).mpr (h4 a ha)
    simp [this]
  unfold PNGImage.Normalize
  rw [hsz]
  simp only []
  rw [normalizeLoop_other _ _ ihdr _ _ _ h1 h2 h3, normalizeLoop_append,
    normalizeLoop_no_iend codec _ idats hno]
  simp only [hfil, List.append_nil, List.nil_append]
  rw [normalizeLoop_iend _ _ iend _ _ _ h5]
  simp only [hinf, hre, hz, normalizeLoop, List.cons_append, List.nil_append]

theorem lossless_overflow (codec : Codec) (hl : codec.Lossless) :
    ∃ (buf : List Byte) (img out : PNGImage),
      ParsePngFileData buf = .ok img ∧ img.Normalize codec = .ok out ∧
      ∃ c ∈ out.imageChunks, 2 ^ 32 ≤ c.data.length ∧ c.header.ChunkLength < 2 ^ 32 ∧
        c.GetFullChunkLength ≠ c.SaveFullChunkToData.length := by
  have hinj : ∀ a b, (codec.zlibCompress a).getD [] = (codec.zlibCompress b).getD [] →
      a = b := by
    intro a b hab
    obtain ⟨za, hza⟩ := hl.compress_total a
    obtain ⟨zb, hzb⟩ := hl.compress_total b
    rw [hza, hzb] at hab
    simp only [Option.getD_some] at hab
    subst hab
    exact hl.compress_injective a b za hza hzb
  have hMK : 2 ^ 32 < 256 ^ 2 ^ 15 :=
    lt_of_lt_of_le (show 2 ^ 32 < 256 ^ 5 by decide)
      (Nat.pow_le_pow_right (by decide) (by decide))
  obtain ⟨r, hr, hlong⟩ := exists_long_image (2 ^ 32) (2 ^ 15) hMK _ hinj
  obtain ⟨comp, hcomp⟩ := hl.compress_total r
  rw [hcomp, Option.getD_some] at hlong
  have hrl : r.length = 32768 * (1 + 4 * 32768) := by
    rw [hr]
    decide
  obtain ⟨o, ho⟩ := reorder_preimage 32768 32768 r hrl
  have hcast : ((32768 : Nat) : Int) = (32768 : Int) := rfl
  rw [hcast] at ho
  obtain ⟨x, hx⟩ := hl.inflate_onto o
  have hwf : ∀ c ∈ hugeIHDR :: (x.map idatByte ++ [sampleIEND]), c.WellFormed := by
    intro c hc
    rcases List.mem_cons.mp hc with rfl | hc
    · exact ⟨rfl, by decide, by decide⟩
    · rcases List.mem_append.mp hc with hc | hc
      · obtain ⟨b, -, rfl⟩ := List.mem_map.mp hc
        exact ⟨rfl, show (1 : Nat) < 2 ^ 32 by decide, show (0 : Nat) < 2 ^ 32 by decide⟩
      · rw [List.mem_singleton] at hc
        subst hc
        exact ⟨rfl, by decide, by decide⟩
  obtain ⟨img, hparse, hchunks⟩ := parse_wire hugeIHDR (x.map idatByte ++ [sampleIEND]) hwf
  obtain ⟨size0, chunks⟩ := img
  simp only at hchunks
  subst hchunks
  have hihdr : hugeIHDR.tryGetImageSize = some ⟨32768, 32768⟩ := rfl
  have hsz : PNGImage.getImageSize ⟨size0, hugeIHDR :: (x.map idatByte ++ [sampleIEND])⟩
      = some ⟨32768, 32768⟩ := by
    simp only [PNGImage.getImageSize, List.findSome?_cons, hihdr]
  have hidats : ∀ c ∈ x.map idatByte, c.header.GetChunkType = tagIDAT := by
    intro c hc
    obtain ⟨b, -, rfl⟩ := List.mem_map.mp hc
    rfl
  have hnorm := normalize_ihdr_idats_iend codec size0 ⟨32768, 32768⟩ hugeIHDR sampleIEND
    (x.map idatByte) o r comp hsz (by decide) (by decide) (by decide) hidats rfl
    (by rw [collectIDAT_idatByte]; exact hx) ho hcomp
  refine ⟨_, _, _, hparse, hnorm, rebuiltIDAT comp,
    List.mem_cons_of_mem _ (List.mem_cons_self _ _), hlong, ?_, ?_⟩
  · exact Nat.mod_lt _ (by decide)
  · rw [length_save]
    have hmod : comp.length % 2 ^ 32 < 2 ^ 32 := Nat.mod_lt _ (by decide)
    show 8 + comp.length % 2 ^ 32 + 4 ≠ 8 + comp.length + 4
    have hlong2 : 2 ^ 32 ≤ comp.length := hlong
    omega

theorem plainCodec_lossless : Codec.Lossless plainCodec where
  compress_total := fun raster => ⟨raster, rfl⟩
  compress_injective := by
    intro r1 r2 z h1 h2
    simp only [plainCodec, Option.some.injEq] at h1 h2
    rw [h1, h2]
  inflate_onto := fun d => ⟨d, rfl⟩

/-- C17, as stated, fails on a rebuilt chunk of `2 ^ 32` bytes or more, with every lossless
codec (there are such codecs): there are a file that `ParsePngFileData` parses, `IHDR` of
32768 x 32768 pixels, `IDAT` chunks, `IEND`, and an image that `Normalize` returns on the
parsed image, whose `IDAT` chunk has a payload of `2 ^ 32` bytes or more and a length field
below `2 ^ 32`, so that `GetFullChunkLength` differs from the length of
`SaveFullChunkToData`. (Such a payload exists because no injective compressor maps all the
rasters of `2 ^ 32 + 2 ^ 15` bytes to buffers shorter than `2 ^ 32` bytes.) -/
theorem length_field_counterexample :
    Codec.Lossless plainCodec ∧
    ∀ codec : Codec, codec.Lossless →
      ∃ (buf : List Byte) (img out : PNGImage),
        ParsePngFileData buf = .ok img ∧ img.Normalize codec = .ok out ∧
        ∃ c ∈ out.imageChunks, 2 ^ 32 ≤ c.data.length ∧ c.header.ChunkLength < 2 ^ 32 ∧
          c.GetFullChunkLength ≠ c.SaveFullChunkToData.length :=
  ⟨plainCodec_lossless, lossless_overflow⟩

end iospng
